import Mathlib

/-!
# Verification of the `nskipgrams` counting library

A shallow embedding of the Python sources `nskipgrams.py` (the current
package: module-level `skipgrams_from_seq`, class `Skipgrams` with its
subclass `Ngrams`) and `ngrams.py` (the older standalone package: module-level
`skipgrams_from_seq` and the standalone class `Ngrams`).

Modelling conventions:
* Python tuples/sequences of tokens become `List α` with `[DecidableEq α]`.
* A Python `dict` (insertion-ordered) becomes an association list; writing a
  fresh key appends at the end, re-writing an existing key keeps its position.
* The heterogeneous trie value (a `defaultdict` whose stored values are either
  nested dicts or `int` counts) becomes the tagged type `Trie`.
* Raised exceptions become `Except PyErr` for read-only operations, and a pair
  `Option PyErr × State` for mutating methods (the state component is what the
  Python object holds when the call returns or raises).
* Machine integers are `Int`/`Nat`; Python ints are unbounded so no wraparound
  is modelled.
-/

/-- The Python exceptions that the modelled code can raise. -/
inductive PyErr : Type where
  | valueError
  | keyError
  | typeError
deriving DecidableEq, Repr

/-! ## Insertion-ordered dictionaries as association lists -/

/-- Python `d[k]` / `k in d` read on a plain dict: first (and only) binding of
the key, or `none` (KeyError / `False`). -/
def dictFind {α β : Type _} [DecidableEq α] : List (α × β) → α → Option β
  | [], _ => none
  | (k, v) :: rest, tok => if tok = k then some v else dictFind rest tok

/-- Python `d[k] = v` write on a dict: overwrite in place if the key exists
(keeping its position in insertion order), otherwise append at the end. -/
def dictSet {α β : Type _} [DecidableEq α] : List (α × β) → α → β → List (α × β)
  | [], tok, v => [(tok, v)]
  | (k, w) :: rest, tok, v =>
      if tok = k then (k, v) :: rest else (k, w) :: dictSet rest tok v

/-! ## The counting trie

`_trie()` in both sources builds a `defaultdict` whose stored values are
either nested tries or `int` counts.  Within one stratum every inserted entry
has the same length, so a node's children are either all nested tries or all
counts; the tagged type below records which. -/

/-- A trie value: an `int` count (`leaf`) or a nested dict (`node`). -/
inductive Trie (α : Type _) : Type _ where
  | leaf (c : Int)
  | node (children : List (α × Trie α))

/-- `_get_inner_trie_from_prefix(trie, ngram_prefix)` from both sources:
descend token by token; reaching an `int` early or missing a key returns
`None` (here `none`).  The source checks `token not in trie` before indexing,
precisely so that the `defaultdict` read never creates an entry. -/
def get_inner_trie_from_pfx {α : Type _} [DecidableEq α] : Trie α → List α → Option (Trie α)
  | t, [] => some t
  | .leaf _, _ :: _ => none
  | .node l, tok :: rest =>
      match dictFind l tok with
      | none => none
      | some child => get_inner_trie_from_pfx child rest

mutual
/-- The inner `_flatten_trie` generator of `_flattened_ngrams_with_counts`:
depth-first paths through a trie paired with the reached count.  The source
distinguishes the all-`int`-values case (yield `items()`) from the nested
case (recurse) by attempting `sum(trie.values())`; on the uniform tries that
strata actually contain the two formulations produce the same list, child by
child in dict insertion order. -/
def flatten_trie {α : Type _} : Trie α → List (List α × Int)
  | .leaf c => [([], c)]
  | .node l => flattenChildren l

/-- Traversal of a node's children, in insertion order. -/
def flattenChildren {α : Type _} : List (α × Trie α) → List (List α × Int)
  | [] => []
  | (tok, child) :: rest =>
      ((flatten_trie child).map fun q => (tok :: q.1, q.2)) ++ flattenChildren rest
end

/-- `_flattened_ngrams_with_counts(trie, prefix)` from both sources: resolve
the given optional token-list argument to `()` when absent (`prefix or ()`),
descend to the inner trie, then yield the single exact count or the flattened
subtree re-rooted at the full paths. -/
def flattened_ngrams_with_counts {α : Type _} [DecidableEq α]
    (t : Trie α) (pfxArg : Option (List α)) : List (List α × Int) :=
  let pfx := pfxArg.getD []
  match get_inner_trie_from_pfx t pfx with
  | none => []
  | some (.leaf c) => [(pfx, c)]
  | some (.node l) => (flattenChildren l).map fun q => (pfx ++ q.1, q.2)

/-- The trie-mutation loop shared by `Skipgrams._add` and `Ngrams.add`:
`for token in ngram[:-1]: trie = trie[token]` (a `defaultdict` read that
creates an empty child when absent, appended in insertion order), then at the
last token accumulate into or create an `int` count.  The `[]` and
descend-into-`leaf` equations are unreachable for the validated calls the
classes make (every entry of a stratum has the stratum's exact length);
Python would raise `TypeError` on a leaf mid-descent. -/
def trieInsert {α : Type _} [DecidableEq α] : Trie α → List α → Int → Trie α
  | .node l, [tok], c =>
      match dictFind l tok with
      | some (.leaf c0) => .node (dictSet l tok (.leaf (c0 + c)))
      | some (.node m) => .node (dictSet l tok (.node m))
      | none => .node (dictSet l tok (.leaf c))
  | .node l, tok :: tok2 :: rest, c =>
      match dictFind l tok with
      | some child => .node (dictSet l tok (trieInsert child (tok2 :: rest) c))
      | none => .node (dictSet l tok (trieInsert (.node []) (tok2 :: rest) c))
  | t, [], _ => t
  | .leaf c0, _ :: _, _ => .leaf c0

/-! ## The windower: `skipgrams_from_seq` -/

/-- `itertools.combinations(l, n)`: all ascending `n`-element selections from
`l`, in lexicographic order of positions (selections containing the head come
first). -/
def combinations {β : Type _} : Nat → List β → List (List β)
  | 0, _ => [[]]
  | _ + 1, [] => []
  | n + 1, x :: xs => ((combinations n xs).map fun c => x :: c) ++ combinations (n + 1) xs

/-- The `OrderedDict`-as-ordered-set idiom of `skipgrams_from_seq`, with the
already-seen keys made explicit: a value is kept at its first occurrence and
later duplicates are dropped. -/
def dedupKeepFirstAux {β : Type _} [DecidableEq β] (seen : List β) : List β → List β
  | [] => []
  | x :: xs =>
      if x ∈ seen then dedupKeepFirstAux seen xs
      else x :: dedupKeepFirstAux (x :: seen) xs

/-- First-seen-order deduplication, as performed by the `OrderedDict` used as
an ordered set in `skipgrams_from_seq`. -/
def dedupKeepFirst {β : Type _} [DecidableEq β] (l : List β) : List β :=
  dedupKeepFirstAux [] l

/-- `tuple(seq[i] for i in indices)` guarded by `except IndexError: pass`:
index the sequence at each position, `none` if any position is out of range
(the whole candidate is then dropped). -/
def mapIndex {α : Type _} (seq : List α) : List Nat → Option (List α)
  | [] => some []
  | i :: rest =>
      match seq.get? i, mapIndex seq rest with
      | some a, some as' => some (a :: as')
      | _, _ => none

/-- The absolute-index tuples generated by `nskipgrams.skipgrams_from_seq`
before deduplication: for each window start `k` (the Python
`range(len(seq) - n + 1)`, empty when `n > len(seq)` — `len + 1 - n` is the
same count under truncated subtraction), each ascending `n`-combination of
`range(min(skip + n, len(seq)))` shifted by `k`. -/
def skipgramIndexLists (len n skip : Nat) : List (List Nat) :=
  (List.range (len + 1 - n)).flatMap fun k =>
    (combinations n (List.range (min (skip + n) len))).map fun idxs => idxs.map (· + k)

/-- `nskipgrams.skipgrams_from_seq(seq, n, skip)`: validate
`n ∈ [1, len(seq)]` and `skip ∈ [0, len(seq)]` (ValueError otherwise), then
yield, in first-seen order, the token tuples of the deduplicated absolute
index tuples, dropping any tuple with an out-of-range index. -/
def skipgrams_from_seq {α : Type _} (seq : List α) (n skip : Nat) :
    Except PyErr (List (List α)) :=
  if n < 1 ∨ seq.length < n then .error .valueError
  else if seq.length < skip then .error .valueError
  else .ok ((dedupKeepFirst (skipgramIndexLists seq.length n skip)).filterMap (mapIndex seq))

/-- `ngrams.skipgrams_from_seq(seq, skip, n)` from the older `ngrams.py`: the
same algorithm with no validation and with the combination pool
`range(skip + n)` not capped at `len(seq)`. -/
def skipgrams_from_seq_legacy {α : Type _} (seq : List α) (skip n : Nat) : List (List α) :=
  (dedupKeepFirst ((List.range (seq.length + 1 - n)).flatMap fun k =>
      (combinations n (List.range (skip + n))).map fun idxs => idxs.map (· + k))).filterMap
    (mapIndex seq)

/-- Modelled from the spec's reference algorithm for `skipgrams_from_seq`
(§4.1): for each window start `k`, every ascending `n`-combination of offsets
within a window of width `min(skip + n, len(seq) - k)`, mapped to absolute
indices `k + offset`; deduplicate across window starts preserving first-seen
order.  This is the comparison point of the refinement claim, written from
the spec's words rather than from the source. -/
def specSkipgramIndexLists (len n skip : Nat) : List (List Nat) :=
  dedupKeepFirst ((List.range (len + 1 - n)).flatMap fun k =>
    (combinations n (List.range (min (skip + n) (len - k)))).map fun idxs => idxs.map (· + k))

/-- Modelled from the spec (§4.1, step 3): the reference yields the token
tuples of the deduplicated absolute index tuples, defensively dropping any
candidate with an out-of-range index. -/
def specSkipgramsFromSeq {α : Type _} (seq : List α) (n skip : Nat) : List (List α) :=
  (specSkipgramIndexLists seq.length n skip).filterMap (mapIndex seq)

example : skipgrams_from_seq (α := Char) ['a', 'b', 'c', 'd'] 2 1 =
    .ok [['a', 'b'], ['a', 'c'], ['b', 'c'], ['b', 'd'], ['c', 'd']] := by rfl

example : specSkipgramsFromSeq (α := Char) ['a', 'b', 'c', 'd'] 2 1 =
    [['a', 'b'], ['a', 'c'], ['b', 'c'], ['b', 'd'], ['c', 'd']] := by rfl

example : skipgrams_from_seq_legacy (α := Char) ['a', 'b', 'c', 'd'] 1 2 =
    [['a', 'b'], ['a', 'c'], ['b', 'c'], ['b', 'd'], ['c', 'd']] := by rfl

/-! ## Claim C1: the windower refines the spec's reference algorithm -/

theorem mem_combinations {β : Type _} {c : List β} :
    ∀ {n : Nat} {l : List β}, c ∈ combinations n l → c.length = n ∧ ∀ a ∈ c, a ∈ l := by
  intro n l
  induction l generalizing c n with
  | nil =>
    cases n with
    | zero => intro hc; simp [combinations] at hc; simp [hc]
    | succ n => intro hc; simp [combinations] at hc
  | cons x xs ih =>
    cases n with
    | zero => intro hc; simp [combinations] at hc; simp [hc]
    | succ n =>
      intro hc
      simp only [combinations, List.mem_append, List.mem_map] at hc
      rcases hc with ⟨d, hd, rfl⟩ | h
      · obtain ⟨hlen, hmem⟩ := ih hd
        refine ⟨by simp [hlen], ?_⟩
        intro a ha
        rcases List.mem_cons.mp ha with rfl | ha'
        · exact List.mem_cons_self _ _
        · exact List.mem_cons_of_mem _ (hmem a ha')
      · obtain ⟨hlen, hmem⟩ := ih h
        exact ⟨hlen, fun a ha => List.mem_cons_of_mem _ (hmem a ha)⟩

/-- Restricting the lexicographic combinations of `xs ++ ys` to those drawn
entirely from the allowed pool `xs` recovers the combinations of `xs`, in the
same order. -/
theorem combinations_append_filter {β : Type _} (p : β → Bool) :
    ∀ (n : Nat) (xs ys : List β), (∀ x ∈ xs, p x = true) → (∀ y ∈ ys, p y = false) →
      (combinations n (xs ++ ys)).filter (fun c => c.all p) = combinations n xs := by
  intro n xs
  induction xs generalizing n with
  | nil =>
    intro ys _ hys
    cases n with
    | zero => simp [combinations]
    | succ n =>
      simp only [List.nil_append, combinations]
      rw [List.filter_eq_nil_iff.mpr]
      intro c hc
      obtain ⟨hlen, hmem⟩ := mem_combinations hc
      cases c with
      | nil => simp at hlen
      | cons a c' =>
        simp only [List.all_cons, Bool.and_eq_true, not_and]
        intro ha
        rw [hys a (hmem a (List.mem_cons_self _ _))] at ha
        exact absurd ha (by simp)
  | cons x xs ih =>
    intro ys hxs hys
    cases n with
    | zero => simp [combinations]
    | succ n =>
      have hx : p x = true := hxs x (List.mem_cons_self _ _)
      have hxs' : ∀ a ∈ xs, p a = true := fun a ha => hxs a (List.mem_cons_of_mem _ ha)
      simp only [List.cons_append, combinations, List.filter_append, List.filter_map]
      have hcomp : ((fun c => List.all c p) ∘ fun c => x :: c) = fun c => List.all c p := by
        funext c
        simp [hx]
      rw [hcomp, show xs.append ys = xs ++ ys from rfl, ih n ys hxs' hys,
        ih (n + 1) ys hxs' hys]

/-- Changing the seen-set by elements that do not occur in the remaining input
does not change the deduplication. -/
theorem dedupKeepFirstAux_congr_seen {β : Type _} [DecidableEq β] :
    ∀ (l seen seen' : List β), (∀ a ∈ l, (a ∈ seen ↔ a ∈ seen')) →
      dedupKeepFirstAux seen l = dedupKeepFirstAux seen' l := by
  intro l
  induction l with
  | nil => intro seen seen' _; rfl
  | cons x xs ih =>
    intro seen seen' h
    have hx := h x (List.mem_cons_self _ _)
    by_cases hmem : x ∈ seen
    · rw [dedupKeepFirstAux, dedupKeepFirstAux, if_pos hmem, if_pos (hx.mp hmem)]
      exact ih seen seen' fun a ha => h a (List.mem_cons_of_mem _ ha)
    · rw [dedupKeepFirstAux, dedupKeepFirstAux, if_neg hmem, if_neg (fun h' => hmem (hx.mpr h'))]
      congr 1
      refine ih (x :: seen) (x :: seen') fun a ha => ?_
      rcases h a (List.mem_cons_of_mem _ ha) with h'
      constructor
      · intro h''
        rcases List.mem_cons.mp h'' with rfl | ha'
        · exact List.mem_cons_self _ _
        · exact List.mem_cons_of_mem _ (h'.mp ha')
      · intro h''
        rcases List.mem_cons.mp h'' with rfl | ha'
        · exact List.mem_cons_self _ _
        · exact List.mem_cons_of_mem _ (h'.mpr ha')

/-- Deduplication keeping first occurrences commutes with filtering: dropping
the uninteresting elements before or after deduplicating gives the same list. -/
theorem dedupKeepFirstAux_filter {β : Type _} [DecidableEq β] (p : β → Bool) :
    ∀ (l seen : List β),
      (dedupKeepFirstAux seen l).filter p = dedupKeepFirstAux seen (l.filter p) := by
  intro l
  induction l with
  | nil => intro seen; rfl
  | cons x xs ih =>
    intro seen
    by_cases hmem : x ∈ seen
    · rw [dedupKeepFirstAux, if_pos hmem, ih]
      by_cases hp : p x = true
      · rw [List.filter_cons_of_pos hp, dedupKeepFirstAux, if_pos hmem]
      · rw [List.filter_cons_of_neg (by simpa using hp)]
    · rw [dedupKeepFirstAux, if_neg hmem]
      by_cases hp : p x = true
      · rw [List.filter_cons_of_pos hp, List.filter_cons_of_pos hp,
          dedupKeepFirstAux, if_neg hmem, ih]
      · rw [List.filter_cons_of_neg (by simpa using hp),
          List.filter_cons_of_neg (by simpa using hp), ih]
        refine dedupKeepFirstAux_congr_seen _ _ _ fun a ha => ?_
        have hax : a ≠ x := by
          intro rfl_eq
          subst rfl_eq
          exact hp (List.of_mem_filter ha)
        simp [List.mem_cons, hax]

theorem dedupKeepFirst_filter {β : Type _} [DecidableEq β] (p : β → Bool) (l : List β) :
    (dedupKeepFirst l).filter p = dedupKeepFirst (l.filter p) :=
  dedupKeepFirstAux_filter p l []

/-- A `filterMap` only looks at the elements its function accepts. -/
theorem filterMap_filter_isSome {γ δ : Type _} (f : γ → Option δ) :
    ∀ l : List γ, l.filterMap f = (l.filter fun x => (f x).isSome).filterMap f := by
  intro l
  induction l with
  | nil => rfl
  | cons x xs ih =>
    cases hfx : f x with
    | none =>
      rw [List.filterMap_cons_none hfx, List.filter_cons_of_neg (by simp [hfx]), ih]
    | some d =>
      rw [List.filterMap_cons_some hfx, List.filter_cons_of_pos (by simp [hfx]),
        List.filterMap_cons_some hfx, ih]

/-- `tuple(seq[i] for i in indices)` succeeds exactly when every index is in
range. -/
theorem mapIndex_isSome {α : Type _} (seq : List α) :
    ∀ idxs : List Nat, (mapIndex seq idxs).isSome = idxs.all fun i => i < seq.length := by
  intro idxs
  induction idxs with
  | nil => rfl
  | cons i rest ih =>
    by_cases hi : i < seq.length
    · rw [List.all_cons]
      cases hrest : mapIndex seq rest with
      | none =>
        rw [mapIndex, List.get?_eq_get hi, hrest]
        rw [hrest] at ih
        simp only [Option.isSome_none] at ih
        simp [← ih]
      | some l =>
        rw [mapIndex, List.get?_eq_get hi, hrest]
        rw [hrest] at ih
        simp only [Option.isSome_some] at ih
        simp [← ih, hi]
    · rw [mapIndex, List.get?_eq_none.mpr (by omega)]
      simp [hi]

theorem flatMapCongr {γ δ : Type _} {l : List γ} {f g : γ → List δ}
    (h : ∀ a ∈ l, f a = g a) : l.flatMap f = l.flatMap g := by
  induction l with
  | nil => rfl
  | cons x xs ih =>
    simp only [List.flatMap_cons]
    rw [h x (List.mem_cons_self _ _), ih fun a ha => h a (List.mem_cons_of_mem _ ha)]

/-- One window start `k`: restricting the shifted combinations drawn from an
offset pool of size `M` to the in-range index tuples recovers exactly the
combinations drawn from the spec's window of width `min(skip + n, len - k)`,
in the same lexicographic order. -/
theorem window_filter (len n skip k M : Nat) (hk : k ≤ len)
    (hwM : min (skip + n) (len - k) ≤ M) (hM : M ≤ skip + n) :
    ((combinations n (List.range M)).map fun idxs => idxs.map (· + k)).filter
        (fun c => c.all fun i => decide (i < len))
      = (combinations n (List.range (min (skip + n) (len - k)))).map
          fun idxs => idxs.map (· + k) := by
  set w := min (skip + n) (len - k) with hw
  rw [List.filter_map]
  have hcomp : ((fun c => c.all fun i => decide (i < len)) ∘ fun idxs : List Nat =>
      idxs.map (· + k)) = fun c => c.all fun i => decide (i + k < len) := by
    funext c
    rw [Function.comp_apply, List.all_map]
    rfl
  rw [hcomp]
  have hrange : List.range M = List.range w ++ List.range' w (M - w) := by
    rw [List.range_eq_range', List.range_eq_range']
    have h := List.range'_append 0 w (M - w) 1
    simp only [Nat.zero_add, Nat.one_mul] at h
    rw [h]
    congr 1
    omega
  rw [hrange, combinations_append_filter (fun i => decide (i + k < len)) n
    (List.range w) (List.range' w (M - w)) ?_ ?_]
  · intro x hx
    have hxw : x < w := List.mem_range.mp hx
    simp only [decide_eq_true_eq]
    omega
  · intro y hy
    obtain ⟨i, hi, rfl⟩ := List.mem_range'.mp hy
    simp only [decide_eq_false_iff_not, not_lt]
    omega

/-- Dropping out-of-range index tuples from the generated raw stream (offset
pool of size `M`, which covers both sources' pools) yields the spec's raw
stream of per-window combinations. -/
theorem rawIndexLists_filter (len n skip M : Nat) (hM : M ≤ skip + n)
    (hMw : ∀ k, min (skip + n) (len - k) ≤ M) :
    ((List.range (len + 1 - n)).flatMap fun k =>
        (combinations n (List.range M)).map fun idxs => idxs.map (· + k)).filter
        (fun c => c.all fun i => decide (i < len))
      = (List.range (len + 1 - n)).flatMap fun k =>
          (combinations n (List.range (min (skip + n) (len - k)))).map
            fun idxs => idxs.map (· + k) := by
  rw [List.filter_flatMap]
  refine flatMapCongr fun k hk => ?_
  have hk' : k ≤ len := by
    have := List.mem_range.mp hk
    omega
  exact window_filter len n skip k M hk' (hMw k) hM

/-- The shared core of claim C1: deduplicate-then-index over the raw stream
with offset pool `M` equals the spec's reference output. -/
theorem dedup_filterMap_core {α : Type _} (seq : List α) (n skip M : Nat)
    (hM : M ≤ skip + n) (hMw : ∀ k, min (skip + n) (seq.length - k) ≤ M) :
    (dedupKeepFirst ((List.range (seq.length + 1 - n)).flatMap fun k =>
        (combinations n (List.range M)).map fun idxs => idxs.map (· + k))).filterMap
        (mapIndex seq)
      = specSkipgramsFromSeq seq n skip := by
  rw [specSkipgramsFromSeq, specSkipgramIndexLists,
    filterMap_filter_isSome (mapIndex seq)]
  rw [List.filter_congr fun pl _ => mapIndex_isSome seq pl]
  rw [dedupKeepFirst_filter, rawIndexLists_filter seq.length n skip M hM hMw]

/-- C1: for every sequence `seq`, `1 ≤ n ≤ len(seq)` and
`0 ≤ skip ≤ len(seq)`, `skipgrams_from_seq(seq, n, skip)` (and likewise the
older `ngrams.py` variant, which needs no validation) yields exactly the token
tuples of the spec's reference algorithm in its order: per window start `k`,
every ascending `n`-combination of offsets within a window of width
`min(skip + n, len - k)` mapped to absolute indices `k + offset`, absolute
tuples deduplicated across window starts preserving first-seen order, each
surviving tuple's tokens yielded exactly once. -/
theorem C1_skipgrams_from_seq_refines_spec {α : Type _} (seq : List α) (n skip : Nat)
    (h1 : 1 ≤ n) (h2 : n ≤ seq.length) (h3 : skip ≤ seq.length) :
    skipgrams_from_seq seq n skip = .ok (specSkipgramsFromSeq seq n skip) ∧
    skipgrams_from_seq_legacy seq skip n = specSkipgramsFromSeq seq n skip := by
  constructor
  · rw [skipgrams_from_seq, if_neg (by omega), if_neg (by omega)]
    exact congrArg Except.ok
      (dedup_filterMap_core seq n skip (min (skip + n) seq.length) (by omega) fun k => by omega)
  · exact dedup_filterMap_core seq n skip (skip + n) le_rfl fun k => by omega

/-- Witness for C1 at a concrete input: the four-token sequence with
`n = 2, skip = 1`. -/
theorem C1_witness :
    skipgrams_from_seq (α := Nat) [10, 20, 30, 40] 2 1 =
        .ok (specSkipgramsFromSeq [10, 20, 30, 40] 2 1) ∧
    skipgrams_from_seq_legacy (α := Nat) [10, 20, 30, 40] 1 2 =
        specSkipgramsFromSeq [10, 20, 30, 40] 2 1 :=
  C1_skipgrams_from_seq_refines_spec [10, 20, 30, 40] 2 1 (by decide) (by decide) (by decide)

/-! ## Stratum-trie theory

Every entry inserted into one stratum trie has the stratum's exact length, so
a stratum trie is always uniform: `TrieWF t L` says every path of `t` has
exactly `L` tokens before its count, with duplicate-free keys at every dict.
Fresh strata (`_trie()` = empty dicts) are well formed and `trieInsert`
preserves well-formedness, so the invariant holds for every reachable
collection. -/

/-- The exact-match stored count of an entry in one stratum trie: the `int`
reached on consuming the whole entry, if any. -/
def leafVal {α : Type _} [DecidableEq α] (t : Trie α) (g : List α) : Option Int :=
  match get_inner_trie_from_pfx t g with
  | some (.leaf c) => some c
  | _ => none

/-- Uniform-depth well-formedness of a stratum trie: counts sit exactly `L`
tokens deep and every dict has duplicate-free keys. -/
inductive TrieWF {α : Type _} : Trie α → Nat → Prop where
  | leaf (c : Int) : TrieWF (.leaf c) 0
  | node (l : List (α × Trie α)) (L : Nat)
      (hnd : (l.map Prod.fst).Nodup)
      (hch : ∀ p ∈ l, TrieWF p.2 L) : TrieWF (.node l) (L + 1)

theorem trieWF_empty_node {α : Type _} (L : Nat) (hL : 1 ≤ L) :
    TrieWF (α := α) (.node []) L := by
  cases L with
  | zero => omega
  | succ L' => exact .node [] L' (by simp) (by simp)

/-! ### Dict lemmas -/

theorem dictFind_mem {α β : Type _} [DecidableEq α] {l : List (α × β)} {k : α} {v : β}
    (h : dictFind l k = some v) : (k, v) ∈ l := by
  induction l with
  | nil => simp [dictFind] at h
  | cons p rest ih =>
    obtain ⟨k0, v0⟩ := p
    rw [dictFind] at h
    by_cases hk : k = k0
    · subst hk
      rw [if_pos rfl] at h
      injection h with h
      subst h
      exact List.mem_cons_self _ _
    · rw [if_neg hk] at h
      exact List.mem_cons_of_mem _ (ih h)

theorem dictFind_dictSet_self {α β : Type _} [DecidableEq α] (l : List (α × β)) (k : α)
    (v : β) : dictFind (dictSet l k v) k = some v := by
  induction l with
  | nil => simp [dictSet, dictFind]
  | cons p rest ih =>
    obtain ⟨k0, v0⟩ := p
    rw [dictSet]
    by_cases hk : k = k0
    · rw [if_pos hk, dictFind, if_pos hk]
    · rw [if_neg hk, dictFind, if_neg hk, ih]

theorem dictFind_dictSet_ne {α β : Type _} [DecidableEq α] (l : List (α × β)) {k k' : α}
    (v : β) (h : k' ≠ k) : dictFind (dictSet l k v) k' = dictFind l k' := by
  induction l with
  | nil => simp [dictSet, dictFind, h]
  | cons p rest ih =>
    obtain ⟨k0, v0⟩ := p
    rw [dictSet]
    by_cases hk : k = k0
    · subst hk
      rw [if_pos rfl, dictFind, dictFind, if_neg h, if_neg h]
    · rw [if_neg hk, dictFind, dictFind]
      by_cases hk' : k' = k0
      · rw [if_pos hk', if_pos hk']
      · rw [if_neg hk', if_neg hk', ih]

theorem dictFind_eq_none {α β : Type _} [DecidableEq α] (l : List (α × β)) (k : α) :
    dictFind l k = none ↔ k ∉ l.map Prod.fst := by
  induction l with
  | nil => simp [dictFind]
  | cons p rest ih =>
    obtain ⟨k0, v0⟩ := p
    rw [dictFind]
    by_cases hk : k = k0
    · subst hk; simp
    · rw [if_neg hk]
      simp [ih, hk]

theorem dictSet_map_fst {α β : Type _} [DecidableEq α] (l : List (α × β)) (k : α) (v : β) :
    (dictSet l k v).map Prod.fst =
      if (dictFind l k).isSome then l.map Prod.fst else l.map Prod.fst ++ [k] := by
  induction l with
  | nil => simp [dictSet, dictFind]
  | cons p rest ih =>
    obtain ⟨k0, v0⟩ := p
    rw [dictSet, dictFind]
    by_cases hk : k = k0
    · rw [if_pos hk, if_pos hk]
      simp
    · rw [if_neg hk, if_neg hk]
      simp only [List.map_cons, ih]
      cases hf : dictFind rest k with
      | some w =>
        simp [hf]
      | none =>
        simp [hf]

theorem mem_dictSet {α β : Type _} [DecidableEq α] {l : List (α × β)} {k : α} {v : β} :
    ∀ p ∈ dictSet l k v, p = (k, v) ∨ p ∈ l := by
  induction l with
  | nil =>
    intro p hp
    rw [dictSet] at hp
    rcases List.mem_cons.mp hp with rfl | h
    · exact Or.inl rfl
    · simp at h
  | cons q rest ih =>
    obtain ⟨k0, v0⟩ := q
    intro p hp
    rw [dictSet] at hp
    by_cases hk : k = k0
    · rw [if_pos hk] at hp
      rcases List.mem_cons.mp hp with rfl | h
      · subst hk; exact Or.inl rfl
      · exact Or.inr (List.mem_cons_of_mem _ h)
    · rw [if_neg hk] at hp
      rcases List.mem_cons.mp hp with rfl | h
      · exact Or.inr (List.mem_cons_self _ _)
      · rcases ih p h with h' | h'
        · exact Or.inl h'
        · exact Or.inr (List.mem_cons_of_mem _ h')

theorem dictSet_nodup {α β : Type _} [DecidableEq α] {l : List (α × β)}
    (hnd : (l.map Prod.fst).Nodup) (k : α) (v : β) :
    ((dictSet l k v).map Prod.fst).Nodup := by
  rw [dictSet_map_fst]
  cases h : dictFind l k with
  | some w =>
    simp only [h, Option.isSome_some, if_pos]
    exact hnd
  | none =>
    have hk : k ∉ l.map Prod.fst := (dictFind_eq_none l k).mp h
    simp only [h, Option.isSome_none, Bool.false_eq_true, if_false]
    simp [List.nodup_append, hnd, hk]

/-! ### Computation lemmas for the trie operations -/

theorem getInner_nil {α : Type _} [DecidableEq α] (t : Trie α) :
    get_inner_trie_from_pfx t [] = some t := by
  cases t <;> rfl

theorem getInner_cons_none {α : Type _} [DecidableEq α] {l : List (α × Trie α)} {tok : α}
    (rest : List α) (h : dictFind l tok = none) :
    get_inner_trie_from_pfx (.node l) (tok :: rest) = none := by
  simp [get_inner_trie_from_pfx, h]

theorem getInner_cons_some {α : Type _} [DecidableEq α] {l : List (α × Trie α)} {tok : α}
    {ch : Trie α} (rest : List α) (h : dictFind l tok = some ch) :
    get_inner_trie_from_pfx (.node l) (tok :: rest) = get_inner_trie_from_pfx ch rest := by
  simp [get_inner_trie_from_pfx, h]

theorem getInner_leaf_cons {α : Type _} [DecidableEq α] (c : Int) (tok : α) (rest : List α) :
    get_inner_trie_from_pfx (.leaf c) (tok :: rest) = none := rfl

theorem leafVal_nil_node {α : Type _} [DecidableEq α] (l : List (α × Trie α)) :
    leafVal (.node l) [] = none := rfl

theorem leafVal_nil_leaf {α : Type _} [DecidableEq α] (c : Int) :
    leafVal (α := α) (.leaf c) [] = some c := rfl

theorem leafVal_leaf_cons {α : Type _} [DecidableEq α] (c : Int) (tok : α) (g : List α) :
    leafVal (.leaf c) (tok :: g) = none := rfl

theorem leafVal_cons_none {α : Type _} [DecidableEq α] {l : List (α × Trie α)} {tok : α}
    (g : List α) (h : dictFind l tok = none) : leafVal (.node l) (tok :: g) = none := by
  rw [leafVal, getInner_cons_none g h]

theorem leafVal_cons_some {α : Type _} [DecidableEq α] {l : List (α × Trie α)} {tok : α}
    {ch : Trie α} (g : List α) (h : dictFind l tok = some ch) :
    leafVal (.node l) (tok :: g) = leafVal ch g := by
  rw [leafVal, getInner_cons_some g h, leafVal]

theorem trieInsert_single_leaf {α : Type _} [DecidableEq α] {l : List (α × Trie α)}
    {tok : α} {c0 : Int} (c : Int) (h : dictFind l tok = some (.leaf c0)) :
    trieInsert (.node l) [tok] c = .node (dictSet l tok (.leaf (c0 + c))) := by
  simp [trieInsert, h]

theorem trieInsert_single_node {α : Type _} [DecidableEq α] {l : List (α × Trie α)}
    {tok : α} {m : List (α × Trie α)} (c : Int) (h : dictFind l tok = some (.node m)) :
    trieInsert (.node l) [tok] c = .node (dictSet l tok (.node m)) := by
  simp [trieInsert, h]

theorem trieInsert_single_none {α : Type _} [DecidableEq α] {l : List (α × Trie α)}
    {tok : α} (c : Int) (h : dictFind l tok = none) :
    trieInsert (.node l) [tok] c = .node (dictSet l tok (.leaf c)) := by
  simp [trieInsert, h]

theorem trieInsert_cons_some {α : Type _} [DecidableEq α] {l : List (α × Trie α)}
    {tok : α} {ch : Trie α} (tok2 : α) (rest : List α) (c : Int)
    (h : dictFind l tok = some ch) :
    trieInsert (.node l) (tok :: tok2 :: rest) c =
      .node (dictSet l tok (trieInsert ch (tok2 :: rest) c)) := by
  simp [trieInsert, h]

theorem trieInsert_cons_none {α : Type _} [DecidableEq α] {l : List (α × Trie α)}
    {tok : α} (tok2 : α) (rest : List α) (c : Int) (h : dictFind l tok = none) :
    trieInsert (.node l) (tok :: tok2 :: rest) c =
      .node (dictSet l tok (trieInsert (.node []) (tok2 :: rest) c)) := by
  simp [trieInsert, h]

theorem not_trieWF_node_zero {α : Type _} {m : List (α × Trie α)}
    (h : TrieWF (.node m) 0) : False := by
  cases h

/-- Inserting an entry of the stratum's exact length preserves the uniform
structure of the stratum trie. -/
theorem trieInsert_WF {α : Type _} [DecidableEq α] :
    ∀ {g : List α} {t : Trie α} {L : Nat}, TrieWF t L → g.length = L → g ≠ [] →
      ∀ c : Int, TrieWF (trieInsert t g c) L := by
  intro g
  induction g with
  | nil =>
    intro t L _ _ hne _
    exact absurd rfl hne
  | cons tok rest ih =>
    intro t L hWF hlen _ c
    cases rest with
    | nil =>
      cases hWF with
      | leaf => simp at hlen
      | node l L' hnd hch =>
        have hL' : L' = 0 := by
          simp at hlen
          omega
        subst hL'
        cases hfind : dictFind l tok with
        | none =>
          rw [trieInsert_single_none c hfind]
          refine .node _ _ (dictSet_nodup hnd _ _) fun p hp => ?_
          rcases mem_dictSet p hp with rfl | hp'
          · exact .leaf c
          · exact hch p hp'
        | some ch =>
          cases ch with
          | leaf c0 =>
            rw [trieInsert_single_leaf c hfind]
            refine .node _ _ (dictSet_nodup hnd _ _) fun p hp => ?_
            rcases mem_dictSet p hp with rfl | hp'
            · exact .leaf _
            · exact hch p hp'
          | node m =>
            exact absurd (hch _ (dictFind_mem hfind)) fun h => not_trieWF_node_zero h
    | cons tok2 rest' =>
      cases hWF with
      | leaf => simp at hlen
      | node l L' hnd hch =>
        have hlen' : (tok2 :: rest').length = L' := by
          simp at hlen ⊢
          omega
        have hL' : 1 ≤ L' := by
          simp at hlen'
          omega
        cases hfind : dictFind l tok with
        | none =>
          rw [trieInsert_cons_none tok2 rest' c hfind]
          refine .node _ _ (dictSet_nodup hnd _ _) fun p hp => ?_
          rcases mem_dictSet p hp with rfl | hp'
          · exact ih (trieWF_empty_node L' hL') hlen' (by simp) c
          · exact hch p hp'
        | some ch =>
          rw [trieInsert_cons_some tok2 rest' c hfind]
          refine .node _ _ (dictSet_nodup hnd _ _) fun p hp => ?_
          rcases mem_dictSet p hp with rfl | hp'
          · exact ih (hch _ (dictFind_mem hfind)) hlen' (by simp) c
          · exact hch p hp'

theorem leafVal_cons_eq_find {α : Type _} [DecidableEq α] {l1 l2 : List (α × Trie α)}
    {tok : α} (g : List α) (h : dictFind l1 tok = dictFind l2 tok) :
    leafVal (.node l1) (tok :: g) = leafVal (.node l2) (tok :: g) := by
  cases hf : dictFind l2 tok with
  | none => rw [leafVal_cons_none g (h.trans hf), leafVal_cons_none g hf]
  | some ch => rw [leafVal_cons_some g (h.trans hf), leafVal_cons_some g hf]

theorem leafVal_empty_node {α : Type _} [DecidableEq α] {g : List α} (h : g ≠ []) :
    leafVal (α := α) (.node []) g = none := by
  cases g with
  | nil => exact absurd rfl h
  | cons a b => exact leafVal_cons_none b rfl

/-- `trieInsert` accumulates the stored count of exactly the inserted entry
and leaves every other same-length entry's stored count unchanged. -/
theorem leafVal_trieInsert {α : Type _} [DecidableEq α] :
    ∀ {g' g : List α} {t : Trie α} {L : Nat}, TrieWF t L → g.length = L →
      g'.length = L → g' ≠ [] → ∀ c : Int,
      leafVal (trieInsert t g' c) g =
        if g = g' then some ((leafVal t g).getD 0 + c) else leafVal t g := by
  intro g'
  induction g' with
  | nil =>
    intro g t L _ _ _ hne _
    exact absurd rfl hne
  | cons tok' rest' ih =>
    intro g t L hWF hg hg' _ c
    cases hWF with
    | leaf => simp at hg'
    | node l L' hnd hch =>
      obtain ⟨tok, gr, rfl⟩ : ∃ tok gr, g = tok :: gr := by
        cases g with
        | nil => simp at hg
        | cons a b => exact ⟨a, b, rfl⟩
      have hgr : gr.length = L' := by
        simp at hg
        omega
      have hrest' : rest'.length = L' := by
        simp at hg'
        omega
      cases rest' with
      | nil =>
        have hL' : L' = 0 := by simpa using hrest'.symm
        subst hL'
        have hgrnil : gr = [] := List.length_eq_zero.mp hgr
        subst hgrnil
        cases hfind : dictFind l tok' with
        | none =>
          rw [trieInsert_single_none c hfind]
          by_cases htok : tok = tok'
          · subst htok
            rw [leafVal_cons_some [] (dictFind_dictSet_self l tok (.leaf c)),
              leafVal_nil_leaf, if_pos rfl, leafVal_cons_none [] hfind]
            simp
          · rw [leafVal_cons_eq_find [] (dictFind_dictSet_ne l (.leaf c) htok),
              if_neg (by simp [htok])]
        | some ch =>
          cases ch with
          | node m =>
            exact absurd (hch _ (dictFind_mem hfind)) fun h => not_trieWF_node_zero h
          | leaf c0 =>
            rw [trieInsert_single_leaf c hfind]
            by_cases htok : tok = tok'
            · subst htok
              rw [leafVal_cons_some [] (dictFind_dictSet_self l tok (.leaf (c0 + c))),
                leafVal_nil_leaf, if_pos rfl, leafVal_cons_some [] hfind, leafVal_nil_leaf]
              simp
            · rw [leafVal_cons_eq_find [] (dictFind_dictSet_ne l (.leaf (c0 + c)) htok),
                if_neg (by simp [htok])]
      | cons tok2' rest'' =>
        have hL' : 1 ≤ L' := by
          simp at hrest'
          omega
        cases hfind : dictFind l tok' with
        | none =>
          rw [trieInsert_cons_none tok2' rest'' c hfind]
          by_cases htok : tok = tok'
          · subst htok
            rw [leafVal_cons_some gr (dictFind_dictSet_self l tok _),
              ih (trieWF_empty_node L' hL') hgr hrest' (by simp) c,
              leafVal_cons_none gr hfind]
            by_cases hgr' : gr = tok2' :: rest''
            · rw [if_pos hgr', if_pos (by rw [hgr']),
                leafVal_empty_node (by rw [hgr']; simp)]
            · rw [if_neg hgr', if_neg (by simp [hgr']),
                leafVal_empty_node (by intro h; rw [h] at hgr; simp at hgr; omega)]
          · rw [leafVal_cons_eq_find gr (dictFind_dictSet_ne l _ htok),
              if_neg (by simp [htok])]
        | some ch =>
          rw [trieInsert_cons_some tok2' rest'' c hfind]
          by_cases htok : tok = tok'
          · subst htok
            have hchWF : TrieWF ch L' := hch _ (dictFind_mem hfind)
            rw [leafVal_cons_some gr (dictFind_dictSet_self l tok _),
              ih hchWF hgr hrest' (by simp) c, leafVal_cons_some gr hfind]
            by_cases hgr' : gr = tok2' :: rest''
            · rw [if_pos hgr', if_pos (by rw [hgr'])]
            · rw [if_neg hgr', if_neg (by simp [hgr'])]
          · rw [leafVal_cons_eq_find gr (dictFind_dictSet_ne l _ htok),
              if_neg (by simp [htok])]

theorem trieWF_leaf_zero {α : Type _} {v : Int} {m : Nat}
    (h : TrieWF (α := α) (.leaf v) m) : m = 0 := by
  cases h
  rfl

/-- Every path yielded by the flattening of a node starts with one of its
keys. -/
theorem flattenChildren_head {α : Type _} {l : List (α × Trie α)} {g : List α} {c : Int}
    (h : (g, c) ∈ flattenChildren l) : ∃ tok gr, g = tok :: gr ∧ tok ∈ l.map Prod.fst := by
  induction l with
  | nil => simp [flattenChildren] at h
  | cons q rest ih =>
    obtain ⟨tok, ch⟩ := q
    rw [flattenChildren, List.mem_append] at h
    rcases h with h | h
    · obtain ⟨⟨q1, q2⟩, _, heq⟩ := List.mem_map.mp h
      cases heq
      exact ⟨tok, q1, rfl, by simp⟩
    · obtain ⟨tok0, gr, rfl, hkey⟩ := ih h
      exact ⟨tok0, gr, rfl, by simp [hkey]⟩

theorem mem_flattenChildren_aux {α : Type _} [DecidableEq α] :
    ∀ l : List (α × Trie α),
      (∀ p ∈ l, ∀ (g : List α) (c : Int),
        ((g, c) ∈ flatten_trie p.2 ↔ leafVal p.2 g = some c)) →
      (l.map Prod.fst).Nodup →
      ∀ (g : List α) (c : Int),
        ((g, c) ∈ flattenChildren l ↔ leafVal (.node l) g = some c) := by
  intro l
  induction l with
  | nil =>
    intro _ _ g c
    rw [flattenChildren]
    simp only [List.not_mem_nil, false_iff]
    intro h
    cases g with
    | nil => rw [leafVal_nil_node] at h; exact Option.noConfusion h
    | cons a b =>
      rw [leafVal_cons_none b (show dictFind ([] : List (α × Trie α)) a = none from rfl)] at h
      exact Option.noConfusion h
  | cons q rest ihl =>
    obtain ⟨tok, ch⟩ := q
    intro hmem hnd g c
    have hnd' := List.nodup_cons.mp (show (tok :: rest.map Prod.fst).Nodup from hnd)
    have hndrest : (rest.map Prod.fst).Nodup := hnd'.2
    have htoknot : tok ∉ rest.map Prod.fst := hnd'.1
    rw [flattenChildren, List.mem_append]
    constructor
    · rintro (hin | hin)
      · obtain ⟨⟨q1, q2⟩, hq, heq⟩ := List.mem_map.mp hin
        cases heq
        rw [leafVal_cons_some q1 (show dictFind ((tok, ch) :: rest) tok = some ch by
          simp [dictFind])]
        exact (hmem (tok, ch) (List.mem_cons_self _ _) q1 q2).mp hq
      · obtain ⟨tok0, gr, rfl, hkey⟩ := flattenChildren_head hin
        have hne : tok0 ≠ tok := fun h => htoknot (h ▸ hkey)
        rw [leafVal_cons_eq_find gr
          (show dictFind ((tok, ch) :: rest) tok0 = dictFind rest tok0 by
            simp [dictFind, hne])]
        exact (ihl (fun p hp => hmem p (List.mem_cons_of_mem _ hp)) hndrest
          (tok0 :: gr) c).mp hin
    · intro hlv
      cases g with
      | nil => rw [leafVal_nil_node] at hlv; exact absurd hlv (by simp)
      | cons tok0 gr =>
        by_cases htok : tok0 = tok
        · subst htok
          rw [leafVal_cons_some gr (show dictFind ((tok0, ch) :: rest) tok0 = some ch by
            simp [dictFind])] at hlv
          exact Or.inl (List.mem_map.mpr
            ⟨(gr, c), (hmem (tok0, ch) (List.mem_cons_self _ _) gr c).mpr hlv, rfl⟩)
        · rw [leafVal_cons_eq_find gr
            (show dictFind ((tok, ch) :: rest) tok0 = dictFind rest tok0 by
              simp [dictFind, htok])] at hlv
          exact Or.inr ((ihl (fun p hp => hmem p (List.mem_cons_of_mem _ hp)) hndrest
            (tok0 :: gr) c).mpr hlv)

/-- Flattening a well-formed stratum trie yields exactly the stored entries
with their stored counts. -/
theorem mem_flatten_trie {α : Type _} [DecidableEq α] {t : Trie α} {L : Nat}
    (hWF : TrieWF t L) :
    ∀ (g : List α) (c : Int), ((g, c) ∈ flatten_trie t ↔ leafVal t g = some c) := by
  induction hWF with
  | leaf c0 =>
    intro g c
    cases g with
    | nil =>
      rw [leafVal_nil_leaf, flatten_trie]
      simp [eq_comm]
    | cons a b =>
      rw [leafVal_leaf_cons, flatten_trie]
      simp
  | node l L' hnd hch ih =>
    intro g c
    rw [flatten_trie]
    exact mem_flattenChildren_aux l (fun p hp => ih p hp) hnd g c

theorem flattenChildren_nodup_aux {α : Type _} [DecidableEq α] :
    ∀ l : List (α × Trie α),
      (∀ p ∈ l, ((flatten_trie p.2).map Prod.fst).Nodup) →
      (l.map Prod.fst).Nodup →
      ((flattenChildren l).map Prod.fst).Nodup := by
  intro l
  induction l with
  | nil =>
    intro _ _
    rw [flattenChildren]
    simp
  | cons q rest ihl =>
    obtain ⟨tok, ch⟩ := q
    intro hmem hnd
    have hnd' := List.nodup_cons.mp (show (tok :: rest.map Prod.fst).Nodup from hnd)
    rw [flattenChildren, List.map_append]
    refine List.Nodup.append ?_ (ihl (fun p hp => hmem p (List.mem_cons_of_mem _ hp)) hnd'.2) ?_
    · rw [List.map_map,
        show (Prod.fst ∘ fun q : List α × Int => (tok :: q.1, q.2)) =
          (fun x => tok :: x) ∘ Prod.fst from rfl,
        ← List.map_map]
      exact List.Nodup.map List.cons_injective (hmem (tok, ch) (List.mem_cons_self _ _))
    · intro a ha1 ha2
      obtain ⟨b, hb, hfst⟩ := List.mem_map.mp ha1
      obtain ⟨⟨w, cw⟩, _, hbw⟩ := List.mem_map.mp hb
      obtain ⟨⟨g, cg⟩, hg, hgeq⟩ := List.mem_map.mp ha2
      obtain ⟨tok0, gr, hgeq2, hkey⟩ := flattenChildren_head hg
      have ha : a = tok :: w := by rw [← hfst, ← hbw]
      have ha' : a = tok0 :: gr := by rw [← hgeq]; exact hgeq2
      have htt : tok0 = tok := by
        rw [ha] at ha'
        injection ha' with h1 _
        exact h1.symm
      exact hnd'.1 (htt ▸ hkey)

theorem flatten_trie_nodup {α : Type _} [DecidableEq α] {t : Trie α} {L : Nat}
    (hWF : TrieWF t L) : ((flatten_trie t).map Prod.fst).Nodup := by
  induction hWF with
  | leaf c0 =>
    rw [flatten_trie]
    simp
  | node l L' hnd hch ih =>
    rw [flatten_trie]
    exact flattenChildren_nodup_aux l (fun p hp => ih p hp) hnd

theorem getInner_append {α : Type _} [DecidableEq α] :
    ∀ (p : List α) (t : Trie α) (q : List α),
      get_inner_trie_from_pfx t (p ++ q) =
        (get_inner_trie_from_pfx t p).bind fun t' => get_inner_trie_from_pfx t' q := by
  intro p
  induction p with
  | nil =>
    intro t q
    rw [List.nil_append, getInner_nil]
    rfl
  | cons tok rest ih =>
    intro t q
    cases t with
    | leaf c =>
      rw [List.cons_append, getInner_leaf_cons, getInner_leaf_cons]
      rfl
    | node l =>
      rw [List.cons_append]
      cases hfind : dictFind l tok with
      | none =>
        rw [getInner_cons_none _ hfind, getInner_cons_none _ hfind]
        rfl
      | some ch =>
        rw [getInner_cons_some _ hfind, getInner_cons_some _ hfind, ih]

theorem getInner_WF {α : Type _} [DecidableEq α] {t : Trie α} {L : Nat}
    (hWF : TrieWF t L) :
    ∀ (p : List α) (t' : Trie α), get_inner_trie_from_pfx t p = some t' →
      p.length ≤ L ∧ TrieWF t' (L - p.length) := by
  induction hWF with
  | leaf c0 =>
    intro p t' h
    cases p with
    | nil =>
      rw [getInner_nil] at h
      injection h with h
      subst h
      exact ⟨Nat.zero_le _, .leaf c0⟩
    | cons a b =>
      rw [getInner_leaf_cons] at h
      exact Option.noConfusion h
  | node l L' hnd hch ih =>
    intro p t' h
    cases p with
    | nil =>
      rw [getInner_nil] at h
      injection h with h
      subst h
      exact ⟨Nat.zero_le _, .node l L' hnd hch⟩
    | cons tok rest =>
      cases hfind : dictFind l tok with
      | none =>
        rw [getInner_cons_none _ hfind] at h
        exact Option.noConfusion h
      | some ch =>
        rw [getInner_cons_some _ hfind] at h
        obtain ⟨hle, hwf⟩ := ih (tok, ch) (dictFind_mem hfind) rest t' h
        refine ⟨by simp; omega, ?_⟩
        have heq : L' + 1 - (tok :: rest).length = L' - rest.length := by
          simp
        rw [heq]
        exact hwf

theorem getInner_none_of_long {α : Type _} [DecidableEq α] {t : Trie α} {L : Nat}
    (hWF : TrieWF t L) {p : List α} (hp : L < p.length) :
    get_inner_trie_from_pfx t p = none := by
  cases h : get_inner_trie_from_pfx t p with
  | none => rfl
  | some t' =>
    have := (getInner_WF hWF p t' h).1
    omega

/-- A stored count sits at the stratum's exact depth. -/
theorem leafVal_length {α : Type _} [DecidableEq α] {t : Trie α} {L : Nat}
    (hWF : TrieWF t L) {g : List α} {c : Int} (h : leafVal t g = some c) :
    g.length = L := by
  rw [leafVal] at h
  cases hg : get_inner_trie_from_pfx t g with
  | none => rw [hg] at h; exact Option.noConfusion h
  | some t' =>
    rw [hg] at h
    cases t' with
    | node m => exact Option.noConfusion h
    | leaf c0 =>
      obtain ⟨hle, hwf⟩ := getInner_WF hWF g _ hg
      have := trieWF_leaf_zero hwf
      omega

theorem leafVal_append_of_getInner {α : Type _} [DecidableEq α] {t t' : Trie α}
    {p : List α} (h : get_inner_trie_from_pfx t p = some t') (q : List α) :
    leafVal t (p ++ q) = leafVal t' q := by
  rw [leafVal, leafVal, getInner_append p t q, h]
  rfl

theorem flattened_eq_none {α : Type _} [DecidableEq α] {t : Trie α}
    {pfxArg : Option (List α)} (h : get_inner_trie_from_pfx t (pfxArg.getD []) = none) :
    flattened_ngrams_with_counts t pfxArg = [] := by
  simp [flattened_ngrams_with_counts, h]

theorem flattened_eq_leaf {α : Type _} [DecidableEq α] {t : Trie α} {c : Int}
    {pfxArg : Option (List α)}
    (h : get_inner_trie_from_pfx t (pfxArg.getD []) = some (.leaf c)) :
    flattened_ngrams_with_counts t pfxArg = [(pfxArg.getD [], c)] := by
  simp [flattened_ngrams_with_counts, h]

theorem flattened_eq_node {α : Type _} [DecidableEq α] {t : Trie α}
    {m : List (α × Trie α)} {pfxArg : Option (List α)}
    (h : get_inner_trie_from_pfx t (pfxArg.getD []) = some (.node m)) :
    flattened_ngrams_with_counts t pfxArg =
      (flattenChildren m).map fun q => (pfxArg.getD [] ++ q.1, q.2) := by
  simp [flattened_ngrams_with_counts, h]

/-- `_flattened_ngrams_with_counts` on a well-formed stratum trie yields
exactly the stored entries extending the requested token-list, each with its
stored count. -/
theorem mem_flattened {α : Type _} [DecidableEq α] {t : Trie α} {L : Nat}
    (hWF : TrieWF t L) (pfxArg : Option (List α)) (g : List α) (c : Int) :
    ((g, c) ∈ flattened_ngrams_with_counts t pfxArg ↔
      pfxArg.getD [] <+: g ∧ leafVal t g = some c) := by
  cases hinner : get_inner_trie_from_pfx t (pfxArg.getD []) with
  | none =>
    rw [flattened_eq_none hinner]
    simp only [List.not_mem_nil, false_iff, not_and]
    intro hpre hlv
    obtain ⟨s, rfl⟩ := hpre
    rw [leafVal, getInner_append _ t s, hinner] at hlv
    exact Option.noConfusion hlv
  | some t' =>
    cases t' with
    | leaf v =>
      rw [flattened_eq_leaf hinner]
      have hlen : (pfxArg.getD []).length = L := by
        obtain ⟨hle, hwf⟩ := getInner_WF hWF _ _ hinner
        have := trieWF_leaf_zero hwf
        omega
      have hvc : leafVal t (pfxArg.getD []) = some v := by
        have h0 := leafVal_append_of_getInner hinner ([] : List α)
        rw [List.append_nil] at h0
        rw [h0, leafVal_nil_leaf]
      constructor
      · intro hmem
        have heq := List.mem_singleton.mp hmem
        have h1 : g = pfxArg.getD [] := by injection heq
        have h2 : c = v := by injection heq
        subst h1
        subst h2
        exact ⟨List.prefix_refl _, hvc⟩
      · rintro ⟨hpre, hlv⟩
        have hglen : g.length = (pfxArg.getD []).length := by
          rw [hlen, leafVal_length hWF hlv]
        have hg : pfxArg.getD [] = g := List.IsPrefix.eq_of_length hpre hglen.symm
        rw [← hg, hvc] at hlv
        injection hlv with hv
        rw [← hg, hv]
        exact List.mem_singleton.mpr rfl
    | node m =>
      rw [flattened_eq_node hinner]
      have hsub := (getInner_WF hWF _ _ hinner).2
      constructor
      · intro hmem
        obtain ⟨⟨q1, q2⟩, hq, heq⟩ := List.mem_map.mp hmem
        cases heq
        refine ⟨⟨q1, rfl⟩, ?_⟩
        rw [leafVal_append_of_getInner hinner]
        exact (mem_flatten_trie hsub q1 q2).mp hq
      · rintro ⟨⟨s, rfl⟩, hlv⟩
        rw [leafVal_append_of_getInner hinner] at hlv
        exact List.mem_map.mpr ⟨(s, c), (mem_flatten_trie hsub s c).mpr hlv, rfl⟩

/-- Each entry is yielded at most once by `_flattened_ngrams_with_counts`. -/
theorem flattened_nodup {α : Type _} [DecidableEq α] {t : Trie α} {L : Nat}
    (hWF : TrieWF t L) (pfxArg : Option (List α)) :
    ((flattened_ngrams_with_counts t pfxArg).map Prod.fst).Nodup := by
  cases hinner : get_inner_trie_from_pfx t (pfxArg.getD []) with
  | none =>
    rw [flattened_eq_none hinner]
    simp
  | some t' =>
    cases t' with
    | leaf v =>
      rw [flattened_eq_leaf hinner]
      simp
    | node m =>
      rw [flattened_eq_node hinner, List.map_map,
        show (Prod.fst ∘ fun q : List α × Int => (pfxArg.getD [] ++ q.1, q.2)) =
          (fun x => pfxArg.getD [] ++ x) ∘ Prod.fst from rfl,
        ← List.map_map]
      have hsub := (getInner_WF hWF _ _ hinner).2
      refine List.Nodup.map (fun a b hab => List.append_cancel_left hab) ?_
      have := flatten_trie_nodup hsub
      rw [flatten_trie] at this
      exact this

/-! ## The `Skipgrams` class of `nskipgrams.py`

`self._tries` is a plain dict built once by `__init__` as
`{(i + 1, k): _trie() for i in range(n) for k in range(skip + 1)}`.  No
method ever adds or removes a key of this dict — the methods only mutate the
trie values stored under existing keys, and `combine` reassigns `self.n` /
`self.skip` without touching `self._tries` — so its key set is forever the
rectangle determined by the construction-time bounds.  The model therefore
keeps the construction-time bounds `n0`/`skip0` (the dict's key set) next to
the current attributes `n`/`skip` (which only `combine` can raise), and reads
the dict through `triesGet`, which returns `none` (Python `KeyError`) outside
the rectangle. -/
structure Skipgrams (α : Type _) : Type _ where
  n : Nat
  skip : Nat
  n0 : Nat
  skip0 : Nat
  tries : Nat → Nat → Trie α

/-- `self._tries[(m, k)]`: `none` is a `KeyError`. -/
def Skipgrams.triesGet {α : Type _} (s : Skipgrams α) (m k : Nat) : Option (Trie α) :=
  if 1 ≤ m ∧ m ≤ s.n0 ∧ k ≤ s.skip0 then some (s.tries m k) else none

/-- In-place replacement of the trie stored under an existing key. -/
def Skipgrams.triesSet {α : Type _} (s : Skipgrams α) (m k : Nat) (t : Trie α) :
    Skipgrams α :=
  { s with tries := fun m' k' => if m' = m ∧ k' = k then t else s.tries m' k' }

/-- The state `Skipgrams.__init__(n, skip)` builds after its validation:
current bounds equal construction bounds, every stratum an empty trie. -/
def Skipgrams.fresh {α : Type _} (n skip : Nat) : Skipgrams α :=
  ⟨n, skip, n, skip, fun _ _ => .node []⟩

/-- `Skipgrams(n, skip)`: `_validate_n` requires `n ≥ 1` (`skip ≥ 0` is
automatic for `Nat`). -/
def Skipgrams.init {α : Type _} (n skip : Nat) : Except PyErr (Skipgrams α) :=
  if n < 1 then .error .valueError else .ok (Skipgrams.fresh n skip)

/-- `Skipgrams._add(skipgram, skip, count, validated)`: when not validated,
check `1 <= len(skipgram) <= self.n` then `0 <= skip <= self.skip`
(ValueError); then read `self._tries[(len(skipgram), skip)]` (KeyError when
absent) and run the trie-insertion loop on it. -/
def Skipgrams.addAux {α : Type _} [DecidableEq α] (s : Skipgrams α) (skipgram : List α)
    (skip : Nat) (count : Int) (validated : Bool) : Option PyErr × Skipgrams α :=
  if validated = false ∧ ¬(1 ≤ skipgram.length ∧ skipgram.length ≤ s.n) then
    (some .valueError, s)
  else if validated = false ∧ s.skip < skip then (some .valueError, s)
  else
    match s.triesGet skipgram.length skip with
    | none => (some .keyError, s)
    | some t => (none, s.triesSet skipgram.length skip (trieInsert t skipgram count))

/-- `Skipgrams.add(skipgram, skip=0, count=1)` = `_add(..., validated=False)`. -/
def Skipgrams.add {α : Type _} [DecidableEq α] (s : Skipgrams α) (skipgram : List α)
    (skip : Nat) (count : Int) : Option PyErr × Skipgrams α :=
  s.addAux skipgram skip count false

/-- `Skipgrams.count(skipgram, skip=0)`: validate the skip bound
(ValueError), return 0 for over-long entries, otherwise look up the stratum
dict (KeyError possible, e.g. for the empty entry) and descend; a dict result
(Subtree) or a falsy result (`None` or the int 0) gives 0. -/
def Skipgrams.count {α : Type _} [DecidableEq α] (s : Skipgrams α) (skipgram : List α)
    (skip : Nat) : Except PyErr Int :=
  if s.skip < skip then .error .valueError
  else if s.n < skipgram.length then .ok 0
  else
    match s.triesGet skipgram.length skip with
    | none => .error .keyError
    | some t =>
      match get_inner_trie_from_pfx t skipgram with
      | some (.node _) => .ok 0
      | none => .ok 0
      | some (.leaf c) => .ok (if c = 0 then 0 else c)

/-- The loop of `Skipgrams.__contains__`: `for skip in range(self.skip + 1)`,
return the first truthy `count` (the count itself, an int!), else 0. -/
def Skipgrams.containsScan {α : Type _} [DecidableEq α] (s : Skipgrams α) (g : List α) :
    List Nat → Except PyErr Int
  | [] => .ok 0
  | k :: rest => do
      let c ← s.count g k
      if c ≠ 0 then .ok c else s.containsScan g rest

/-- `Skipgrams.__contains__(skipgram)`: note the source returns the count or
the int 0, not a bool. -/
def Skipgrams.contains {α : Type _} [DecidableEq α] (s : Skipgrams α) (g : List α) :
    Except PyErr Int :=
  s.containsScan g (List.range (s.skip + 1))

/-- `Skipgrams._skipgrams_with_counts(n, skip, prefix, validated)`: optional
validation of `n` and `skip` (ValueError), then flatten
`self._tries[(n, skip)]` (KeyError when the key is absent). -/
def Skipgrams.skipgramsWithCounts {α : Type _} [DecidableEq α] (s : Skipgrams α)
    (n skip : Nat) (pfxArg : Option (List α)) (validated : Bool) :
    Except PyErr (List (List α × Int)) :=
  if validated = false ∧ ¬(1 ≤ n ∧ n ≤ s.n) then .error .valueError
  else if validated = false ∧ s.skip < skip then .error .valueError
  else
    match s.triesGet n skip with
    | none => .error .keyError
    | some t => .ok (flattened_ngrams_with_counts t pfxArg)

/-- The inner loop of `Skipgrams.combine`: re-insert each `(entry, count)` of
one stratum of `other` into self via `_add(..., validated=True)`. -/
def Skipgrams.addEntries {α : Type _} [DecidableEq α] (s : Skipgrams α) (skip : Nat) :
    List (List α × Int) → Option PyErr × Skipgrams α
  | [] => (none, s)
  | (g, c) :: rest =>
      match s.addAux g skip c true with
      | (some e, s') => (some e, s')
      | (none, s') => s'.addEntries skip rest

/-- `for n in range(1, other.n + 1): for skip in range(0, other.skip + 1)` —
the stratum keys `combine` walks, in source order. -/
def stratumKeys (n skip : Nat) : List (Nat × Nat) :=
  (List.range n).flatMap fun i => (List.range (skip + 1)).map fun k => (i + 1, k)

/-- The stratum loop of `Skipgrams.combine` for a single `other`. -/
def Skipgrams.combineStrata {α : Type _} [DecidableEq α] (s : Skipgrams α)
    (other : Skipgrams α) : List (Nat × Nat) → Option PyErr × Skipgrams α
  | [] => (none, s)
  | (m, k) :: rest =>
      match other.skipgramsWithCounts m k none true with
      | .error e => (some e, s)
      | .ok entries =>
          match s.addEntries k entries with
          | (some e, s') => (some e, s')
          | (none, s') => s'.combineStrata other rest

/-- One iteration of `Skipgrams.combine`: raise `self.n` / `self.skip` to
`other`'s when smaller (attributes only — no new strata are allocated in
`self._tries`), then walk `other`'s strata re-inserting every entry. -/
def Skipgrams.combineOne {α : Type _} [DecidableEq α] (s : Skipgrams α)
    (other : Skipgrams α) : Option PyErr × Skipgrams α :=
  let s1 := if s.n < other.n then { s with n := other.n } else s
  let s2 := if s1.skip < other.skip then { s1 with skip := other.skip } else s1
  s2.combineStrata other (stratumKeys other.n other.skip)

/-- `Skipgrams.combine(*others)` (the isinstance type check is subsumed by
typing here; a non-`Skipgrams` argument is the TypeError case). -/
def Skipgrams.combine {α : Type _} [DecidableEq α] (s : Skipgrams α) :
    List (Skipgrams α) → Option PyErr × Skipgrams α
  | [] => (none, s)
  | o :: rest =>
      match s.combineOne o with
      | (some e, s') => (some e, s')
      | (none, s') => s'.combine rest

/-! ## The standalone `Ngrams` class of `ngrams.py`

`self._tries = {(i + 1): _trie() for i in range(order)}`; `order` is
immutable after construction (the plain-ngram `combine` never widens), so the
key set is always `1..=order`. -/
structure Ngrams (α : Type _) : Type _ where
  order : Nat
  tries : Nat → Trie α

/-- `self._tries[m]` for a natural key: `none` is a `KeyError`. -/
def Ngrams.triesGet {α : Type _} (s : Ngrams α) (m : Nat) : Option (Trie α) :=
  if 1 ≤ m ∧ m ≤ s.order then some (s.tries m) else none

/-- `self._tries[m]` for a Python-int key, as used by `ngrams_with_counts`
(an out-of-range or non-positive order raises `KeyError`). -/
def Ngrams.triesGetI {α : Type _} (s : Ngrams α) (m : Int) : Option (Trie α) :=
  if 1 ≤ m ∧ m ≤ (s.order : Int) then some (s.tries m.toNat) else none

def Ngrams.triesSet {α : Type _} (s : Ngrams α) (m : Nat) (t : Trie α) : Ngrams α :=
  { s with tries := fun m' => if m' = m then t else s.tries m' }

/-- The state `Ngrams.__init__(order)` builds after its validation. -/
def Ngrams.fresh {α : Type _} (order : Nat) : Ngrams α :=
  ⟨order, fun _ => .node []⟩

/-- `Ngrams(order)`: rejects `order < 1`. -/
def Ngrams.init {α : Type _} (order : Nat) : Except PyErr (Ngrams α) :=
  if order < 1 then .error .valueError else .ok (Ngrams.fresh order)

/-- `Ngrams.add(ngram, count=1)`: validate `1 <= len(ngram) <= self.order`
(ValueError) before any mutation, then insert into the stratum trie.  After
validation the stratum key is always present. -/
def Ngrams.add {α : Type _} [DecidableEq α] (s : Ngrams α) (ngram : List α)
    (count : Int) : Option PyErr × Ngrams α :=
  if ¬(1 ≤ ngram.length ∧ ngram.length ≤ s.order) then (some .valueError, s)
  else
    match s.triesGet ngram.length with
    | none => (some .keyError, s)
    | some t => (none, s.triesSet ngram.length (trieInsert t ngram count))

/-- `Ngrams.count(ngram)`: 0 for over-long entries; otherwise read the
stratum (`self._tries[0]` raises KeyError for an empty entry) and descend;
a Subtree or falsy result gives 0. -/
def Ngrams.count {α : Type _} [DecidableEq α] (s : Ngrams α) (ngram : List α) :
    Except PyErr Int :=
  if s.order < ngram.length then .ok 0
  else
    match s.triesGet ngram.length with
    | none => .error .keyError
    | some t =>
      match get_inner_trie_from_pfx t ngram with
      | some (.node _) => .ok 0
      | none => .ok 0
      | some (.leaf c) => .ok (if c = 0 then 0 else c)

/-- `Ngrams.__contains__(ngram)` = `bool(self.count(ngram))`: a strict
boolean. -/
def Ngrams.contains {α : Type _} [DecidableEq α] (s : Ngrams α) (ngram : List α) :
    Except PyErr Bool := do
  let c ← s.count ngram
  .ok (decide (c ≠ 0))

/-- One element of a Python `order` iterable: an int or something else. -/
inductive OrderItem : Type where
  | int (i : Int)
  | nonInt
deriving DecidableEq, Repr

/-- The polymorphic `order` argument of `ngrams_with_counts`/`total_count`:
`None`, a single int, an iterable, or some other object. -/
inductive OrderArg : Type where
  | noneArg
  | intArg (i : Int)
  | iterArg (xs : List OrderItem)
  | otherArg
deriving DecidableEq, Repr

/-- The order-resolution prologue of `ngrams_with_counts`: a single int
becomes a one-element list; an iterable must contain only ints (ValueError
otherwise); `None` means `range(1, self.order + 1)`; anything else is a
ValueError. -/
def resolveOrders (order : OrderArg) (maxOrder : Nat) : Except PyErr (List Int) :=
  match order with
  | .intArg i => .ok [i]
  | .iterArg xs =>
      if xs.all fun x => match x with | .int _ => true | .nonInt => false then
        .ok (xs.filterMap fun x => match x with | .int i => some i | .nonInt => none)
      else .error .valueError
  | .noneArg => .ok ((List.range maxOrder).map fun i : Nat => (i : Int) + 1)
  | .otherArg => .error .valueError

/-- The stratum loop of `ngrams_with_counts`: `self._tries[n]` may raise
`KeyError` (after the pairs of earlier orders were already yielded; callers
here consume the generator fully, so the call's outcome is the error). -/
def Ngrams.wcLoop {α : Type _} [DecidableEq α] (s : Ngrams α)
    (pfxArg : Option (List α)) : List Int → Except PyErr (List (List α × Int))
  | [] => .ok []
  | m :: rest =>
      match s.triesGetI m with
      | none => .error .keyError
      | some t => do
          let r ← s.wcLoop pfxArg rest
          .ok (flattened_ngrams_with_counts t pfxArg ++ r)

/-- `Ngrams.ngrams_with_counts(order=None, prefix=None)`, fully consumed. -/
def Ngrams.ngramsWithCounts {α : Type _} [DecidableEq α] (s : Ngrams α)
    (order : OrderArg) (pfxArg : Option (List α)) :
    Except PyErr (List (List α × Int)) := do
  let orders ← resolveOrders order s.order
  s.wcLoop pfxArg orders

/-- `Ngrams.total_count(order=None, unique=False)`: consume
`ngrams_with_counts(order)` and either count the yielded pairs (`unique`) or
sum their counts. -/
def Ngrams.totalCount {α : Type _} [DecidableEq α] (s : Ngrams α) (order : OrderArg)
    (unique : Bool) : Except PyErr Int := do
  let l ← s.ngramsWithCounts order none
  if unique then .ok (l.length : Int) else .ok (l.map Prod.snd).sum

/-- The inner loop of `Ngrams.combine`: `self.add(ngram, count)` per yielded
pair. -/
def Ngrams.addEntries {α : Type _} [DecidableEq α] (s : Ngrams α) :
    List (List α × Int) → Option PyErr × Ngrams α
  | [] => (none, s)
  | (g, c) :: rest =>
      match s.add g c with
      | (some e, s') => (some e, s')
      | (none, s') => s'.addEntries rest

/-- One iteration of `Ngrams.combine`: read `other`'s entries for the orders
`range(1, min(other.order, self.order) + 1)` (a genuine int iterable) and
re-insert each into self.  self's `order` is never modified. -/
def Ngrams.combineOne {α : Type _} [DecidableEq α] (s : Ngrams α) (other : Ngrams α) :
    Option PyErr × Ngrams α :=
  match other.ngramsWithCounts
      (.iterArg ((List.range (min other.order s.order)).map
        fun i => OrderItem.int ((i + 1 : Nat) : Int))) none with
  | .error e => (some e, s)
  | .ok entries => s.addEntries entries

/-- `Ngrams.combine(*others)` (the `type(other) != Ngrams` TypeError is
subsumed by typing here). -/
def Ngrams.combine {α : Type _} [DecidableEq α] (s : Ngrams α) :
    List (Ngrams α) → Option PyErr × Ngrams α
  | [] => (none, s)
  | o :: rest =>
      match s.combineOne o with
      | (some e, s') => (some e, s')
      | (none, s') => s'.combine rest

example :
    ((Ngrams.fresh 3 : Ngrams Char).add ['a', 'b'] 1).2.count ['a', 'b'] = .ok 1 := by rfl

example :
    ((Ngrams.fresh 3 : Ngrams Char).add ['a', 'b'] 4).2.count ['a', 'c'] = .ok 0 := by rfl

example :
    (((Ngrams.fresh 3 : Ngrams Char).add ['a', 'b'] 4).2.add ['a', 'b'] 2).2.count ['a', 'b']
      = .ok 6 := by rfl

example :
    ((Skipgrams.fresh 1 0 : Skipgrams Char).combine
        [((Skipgrams.fresh 2 0).add ['a', 'b'] 0 1).2]).1 = some .keyError := by rfl

example :
    ((Skipgrams.fresh 1 0 : Skipgrams Char).combine
        [((Skipgrams.fresh 2 0).add ['a', 'b'] 0 1).2]).2.n = 2 := by rfl

/-! ## Skipgrams: invariants and the add/count interaction -/

/-- Every allocated stratum trie is uniform at its order. -/
def Skipgrams.WF {α : Type _} (s : Skipgrams α) : Prop :=
  ∀ m k, 1 ≤ m → m ≤ s.n0 → k ≤ s.skip0 → TrieWF (s.tries m k) m

/-- The collection's declared bounds still match the allocated strata: true
of every collection that has not been widened by `combine`. -/
def Skipgrams.unwidened {α : Type _} (s : Skipgrams α) : Prop :=
  s.n = s.n0 ∧ s.skip = s.skip0

/-- The mathematically stored count of an entry at a skip: the leaf value in
its stratum, or 0. -/
def Skipgrams.storedCount {α : Type _} [DecidableEq α] (s : Skipgrams α) (g : List α)
    (k : Nat) : Int :=
  (leafVal (s.tries g.length k) g).getD 0

/-- What `count` computes for an in-bounds query (0 beyond the order bound). -/
def Skipgrams.countVal {α : Type _} [DecidableEq α] (s : Skipgrams α) (g : List α)
    (k : Nat) : Int :=
  if s.n < g.length then 0 else s.storedCount g k

theorem Skipgrams.fresh_WF {α : Type _} (n skip : Nat) :
    (Skipgrams.fresh n skip : Skipgrams α).WF :=
  fun m _ h1 _ _ => trieWF_empty_node m h1

theorem Skipgrams.fresh_unwidened {α : Type _} (n skip : Nat) :
    (Skipgrams.fresh n skip : Skipgrams α).unwidened :=
  ⟨rfl, rfl⟩

theorem leafVal_node_nil_any {α : Type _} [DecidableEq α] (g : List α) :
    leafVal (α := α) (.node []) g = none := by
  cases g with
  | nil => exact leafVal_nil_node []
  | cons a b => exact leafVal_cons_none b rfl

theorem Skipgrams.storedCount_fresh {α : Type _} [DecidableEq α] (n skip : Nat)
    (g : List α) (k : Nat) : (Skipgrams.fresh n skip : Skipgrams α).storedCount g k = 0 := by
  rw [Skipgrams.storedCount, Skipgrams.fresh, leafVal_node_nil_any]
  rfl

/-- In-bounds `_add` takes the success path: validation (if any) passes, the
stratum key is present, and the result is the in-place trie insertion. -/
theorem Skipgrams.addAux_eq {α : Type _} [DecidableEq α] (s : Skipgrams α)
    {g : List α} {k : Nat} (c : Int) (validated : Bool)
    (h1 : 1 ≤ g.length) (h2 : g.length ≤ s.n) (hk : k ≤ s.skip)
    (h2' : g.length ≤ s.n0) (hk' : k ≤ s.skip0) :
    s.addAux g k c validated =
      (none, s.triesSet g.length k (trieInsert (s.tries g.length k) g c)) := by
  rw [Skipgrams.addAux, if_neg (by simp; omega), if_neg (by simp; omega)]
  rw [show s.triesGet g.length k = some (s.tries g.length k) by
    rw [Skipgrams.triesGet, if_pos ⟨h1, h2', hk'⟩]]

theorem Skipgrams.triesSet_fields {α : Type _} (s : Skipgrams α) (m k : Nat) (t : Trie α) :
    (s.triesSet m k t).n = s.n ∧ (s.triesSet m k t).skip = s.skip ∧
      (s.triesSet m k t).n0 = s.n0 ∧ (s.triesSet m k t).skip0 = s.skip0 :=
  ⟨rfl, rfl, rfl, rfl⟩

theorem Skipgrams.triesSet_tries {α : Type _} (s : Skipgrams α) (m k : Nat) (t : Trie α)
    (m' k' : Nat) :
    (s.triesSet m k t).tries m' k' = if m' = m ∧ k' = k then t else s.tries m' k' := rfl

/-- The one-stratum update performed by a successful `_add` preserves
well-formedness. -/
theorem Skipgrams.triesSet_insert_WF {α : Type _} [DecidableEq α] {s : Skipgrams α}
    (hWF : s.WF) {g : List α} {k : Nat} (c : Int)
    (h1 : 1 ≤ g.length) (h2 : g.length ≤ s.n0) (hk : k ≤ s.skip0) :
    (s.triesSet g.length k (trieInsert (s.tries g.length k) g c)).WF := by
  intro m k' hm1 hm2 hk2
  rw [show (s.triesSet g.length k (trieInsert (s.tries g.length k) g c)).tries m k' =
      if m = g.length ∧ k' = k then trieInsert (s.tries g.length k) g c
      else s.tries m k' from rfl]
  by_cases hcase : m = g.length ∧ k' = k
  · obtain ⟨rfl, rfl⟩ := hcase
    rw [if_pos ⟨rfl, rfl⟩]
    exact trieInsert_WF (hWF _ _ h1 h2 hk) rfl
      (by intro h; rw [h] at h1; simp at h1) c
  · rw [if_neg hcase]
    exact hWF m k' hm1 hm2 hk2

/-- Effect of a successful `_add` on every stored count: the inserted
`(entry, skip)` pair accumulates `count`, everything else is untouched. -/
theorem Skipgrams.storedCount_triesSet_insert {α : Type _} [DecidableEq α]
    {s : Skipgrams α} (hWF : s.WF) {g' : List α} {k' : Nat} (c : Int)
    (h1 : 1 ≤ g'.length) (h2 : g'.length ≤ s.n0) (hk : k' ≤ s.skip0) :
    ∀ (g : List α) (k : Nat),
      (s.triesSet g'.length k' (trieInsert (s.tries g'.length k') g' c)).storedCount g k =
        s.storedCount g k + (if g = g' ∧ k = k' then c else 0) := by
  intro g k
  rw [Skipgrams.storedCount, Skipgrams.storedCount, Skipgrams.triesSet_tries]
  by_cases hcase : g.length = g'.length ∧ k = k'
  · obtain ⟨hlen, hkk⟩ := hcase
    subst hkk
    rw [if_pos (show g.length = g'.length ∧ k = k from ⟨hlen, rfl⟩), hlen,
      leafVal_trieInsert (hWF _ _ h1 h2 hk) hlen rfl
        (by intro h; rw [h] at h1; simp at h1) c]
    by_cases hgg : g = g'
    · rw [if_pos hgg, if_pos (show g = g' ∧ k = k from ⟨hgg, rfl⟩)]
      rfl
    · rw [if_neg hgg, if_neg (by simp [hgg])]
      omega
  · rw [if_neg hcase, if_neg (fun h => hcase ⟨by rw [h.1], h.2⟩)]
    omega

/-- `count` on an in-bounds query returns the stored count (the `Subtree`
and falsy branches both coincide with a stored 0). -/
theorem Skipgrams.count_ok {α : Type _} [DecidableEq α] (s : Skipgrams α)
    {g : List α} {k : Nat} (hU : s.unwidened) (h1 : 1 ≤ g.length) (hk : k ≤ s.skip) :
    s.count g k = .ok (s.countVal g k) := by
  obtain ⟨hn0, hs0⟩ := hU
  rw [Skipgrams.count, if_neg (by omega), Skipgrams.countVal]
  by_cases hlong : s.n < g.length
  · rw [if_pos hlong, if_pos hlong]
  · rw [if_neg hlong, if_neg hlong]
    have htg : s.triesGet g.length k = some (s.tries g.length k) := by
      rw [Skipgrams.triesGet, if_pos ⟨h1, by omega, by omega⟩]
    rw [Skipgrams.storedCount]
    cases hinner : get_inner_trie_from_pfx (s.tries g.length k) g with
    | none => simp [htg, hinner, leafVal]
    | some t' =>
      cases t' with
      | node m => simp [htg, hinner, leafVal]
      | leaf c =>
        simp only [htg, hinner, leafVal]
        by_cases hc : c = 0
        · simp [hc]
        · simp [hc]

/-- A sequence of public `add(entry, skip, count)` calls, stopping at the
first raised error. -/
def Skipgrams.applyAdds {α : Type _} [DecidableEq α] (s : Skipgrams α) :
    List (List α × Nat × Int) → Option PyErr × Skipgrams α
  | [] => (none, s)
  | (g, k, c) :: rest =>
      match s.add g k c with
      | (some e, s') => (some e, s')
      | (none, s') => s'.applyAdds rest

/-- The total count contributed by the `add` calls made for exactly one
`(entry, skip)` pair. -/
def opsSum {α : Type _} [DecidableEq α] (ops : List (List α × Nat × Int)) (g : List α)
    (k : Nat) : Int :=
  ((ops.filter fun op => op.1 = g ∧ op.2.1 = k).map fun op => op.2.2).sum

theorem opsSum_nil {α : Type _} [DecidableEq α] (g : List α) (k : Nat) :
    opsSum ([] : List (List α × Nat × Int)) g k = 0 := rfl

theorem opsSum_cons {α : Type _} [DecidableEq α] (g0 : List α) (k0 : Nat) (c0 : Int)
    (rest : List (List α × Nat × Int)) (g : List α) (k : Nat) :
    opsSum ((g0, k0, c0) :: rest) g k =
      (if g0 = g ∧ k0 = k then c0 else 0) + opsSum rest g k := by
  rw [opsSum, opsSum]
  by_cases h : g0 = g ∧ k0 = k
  · rw [List.filter_cons_of_pos (by simpa using h), if_pos h]
    simp
  · rw [List.filter_cons_of_neg (by simpa using h), if_neg h]
    simp

theorem Skipgrams.applyAdds_spec {α : Type _} [DecidableEq α] :
    ∀ (ops : List (List α × Nat × Int)) (s : Skipgrams α), s.WF → s.unwidened →
      (∀ op ∈ ops, 1 ≤ op.1.length ∧ op.1.length ≤ s.n ∧ op.2.1 ≤ s.skip) →
      (s.applyAdds ops).1 = none ∧ (s.applyAdds ops).2.WF ∧
        (s.applyAdds ops).2.n = s.n ∧ (s.applyAdds ops).2.skip = s.skip ∧
        (s.applyAdds ops).2.n0 = s.n0 ∧ (s.applyAdds ops).2.skip0 = s.skip0 ∧
        ∀ (g : List α) (k : Nat),
          (s.applyAdds ops).2.storedCount g k = s.storedCount g k + opsSum ops g k := by
  intro ops
  induction ops with
  | nil =>
    intro s hWF _ _
    exact ⟨rfl, hWF, rfl, rfl, rfl, rfl,
      fun g k => by simp [Skipgrams.applyAdds, opsSum_nil]⟩
  | cons op rest ih =>
    intro s hWF hU hval
    obtain ⟨g0, k0, c0⟩ := op
    have h0 := hval _ (List.mem_cons_self _ _)
    have hadd : s.add g0 k0 c0 =
        (none, s.triesSet g0.length k0 (trieInsert (s.tries g0.length k0) g0 c0)) :=
      Skipgrams.addAux_eq s c0 false h0.1 h0.2.1 h0.2.2 (hU.1 ▸ h0.2.1) (hU.2 ▸ h0.2.2)
    have hred : s.applyAdds ((g0, k0, c0) :: rest) =
        (s.triesSet g0.length k0 (trieInsert (s.tries g0.length k0) g0 c0)).applyAdds
          rest := by
      simp only [Skipgrams.applyAdds, hadd]
    have hWF1 := Skipgrams.triesSet_insert_WF hWF c0 h0.1 (hU.1 ▸ h0.2.1) (hU.2 ▸ h0.2.2)
    have hU1 : (s.triesSet g0.length k0
        (trieInsert (s.tries g0.length k0) g0 c0)).unwidened := hU
    have hval1 : ∀ op ∈ rest, 1 ≤ op.1.length ∧
        op.1.length ≤ (s.triesSet g0.length k0
          (trieInsert (s.tries g0.length k0) g0 c0)).n ∧
        op.2.1 ≤ (s.triesSet g0.length k0
          (trieInsert (s.tries g0.length k0) g0 c0)).skip :=
      fun op hop => hval op (List.mem_cons_of_mem _ hop)
    obtain ⟨hfst, hWF2, hn2, hsk2, hn02, hsk02, hsc⟩ := ih _ hWF1 hU1 hval1
    rw [hred]
    refine ⟨hfst, hWF2, hn2, hsk2, hn02, hsk02, fun g k => ?_⟩
    rw [hsc g k,
      Skipgrams.storedCount_triesSet_insert hWF c0 h0.1 (hU.1 ▸ h0.2.1) (hU.2 ▸ h0.2.2) g k,
      opsSum_cons]
    by_cases hcond : g = g0 ∧ k = k0
    · rw [if_pos hcond, if_pos ⟨hcond.1.symm, hcond.2.symm⟩]
      omega
    · rw [if_neg hcond, if_neg (fun h => hcond ⟨h.1.symm, h.2.symm⟩)]
      omega

/-- C4: on a fresh skip-gram collection, after any sequence of valid `add`
calls, `count(e, skip)` returns exactly the accumulated sum of the counts
added for that precise `(entry, skip)` pair (so a single add round-trips and
two adds of the same entry sum), `count` returns 0 for entries longer than
`max_order` and for entries never added (their accumulated sum is 0), and a
lookup reaching a `Subtree` (a dict) also returns 0. -/
theorem C4_count_accumulates {α : Type _} [DecidableEq α] (n skip : Nat)
    (ops : List (List α × Nat × Int))
    (hops : ∀ op ∈ ops, 1 ≤ op.1.length ∧ op.1.length ≤ n ∧ op.2.1 ≤ skip) :
    ((Skipgrams.fresh n skip : Skipgrams α).applyAdds ops).1 = none ∧
    (∀ (g : List α) (k : Nat), 1 ≤ g.length → k ≤ skip →
      ((Skipgrams.fresh n skip : Skipgrams α).applyAdds ops).2.count g k =
        .ok (if g.length ≤ n then opsSum ops g k else 0)) ∧
    (∀ (s : Skipgrams α) (g : List α) (k : Nat) (t : Trie α) (m : List (α × Trie α)),
      k ≤ s.skip → g.length ≤ s.n → s.triesGet g.length k = some t →
      get_inner_trie_from_pfx t g = some (.node m) → s.count g k = .ok 0) := by
  obtain ⟨hfst, hWF, hn, hsk, hn0, hsk0, hsc⟩ :=
    Skipgrams.applyAdds_spec ops (Skipgrams.fresh n skip) (Skipgrams.fresh_WF n skip)
      (Skipgrams.fresh_unwidened n skip) hops
  have hfn : (Skipgrams.fresh n skip : Skipgrams α).n = n := rfl
  have hfk : (Skipgrams.fresh n skip : Skipgrams α).skip = skip := rfl
  refine ⟨hfst, fun g k h1 hk => ?_, fun s g k t m hks hgs htg hinner => ?_⟩
  · have hU : ((Skipgrams.fresh n skip : Skipgrams α).applyAdds ops).2.unwidened := by
      constructor
      · rw [hn, hn0]
        rfl
      · rw [hsk, hsk0]
        rfl
    rw [Skipgrams.count_ok _ hU h1 (by rw [hsk, hfk]; exact hk), Skipgrams.countVal, hn,
      hfn, hsc g k, Skipgrams.storedCount_fresh]
    by_cases hlen : g.length ≤ n
    · rw [if_neg (by omega), if_pos hlen]
      norm_num
    · rw [if_pos (by omega), if_neg hlen]
  · rw [Skipgrams.count, if_neg (by omega), if_neg (by omega)]
    simp [htg, hinner]

/-- Witness for C4: two adds of the same pair sum (3 + 4 = 7). -/
theorem C4_witness :
    ((Skipgrams.fresh 2 1 : Skipgrams Char).applyAdds
        [(['a', 'b'], 1, 3), (['a', 'b'], 1, 4), (['c'], 0, 2)]).1 = none ∧
    ((Skipgrams.fresh 2 1 : Skipgrams Char).applyAdds
        [(['a', 'b'], 1, 3), (['a', 'b'], 1, 4), (['c'], 0, 2)]).2.count ['a', 'b'] 1 =
      .ok 7 := by
  have h := C4_count_accumulates (α := Char) 2 1
    [(['a', 'b'], 1, 3), (['a', 'b'], 1, 4), (['c'], 0, 2)] (by decide)
  refine ⟨h.1, ?_⟩
  rw [h.2.1 ['a', 'b'] 1 (by decide) (by decide)]
  rfl

/-- C8 (amended): on any skip-gram collection whose declared bounds still
match its constructed strata (every state reached without a widening
`combine`) and on every `ngrams.py` collection, `add` raises exactly when
the entry length or the skip violates the declared bounds; the error is the
invalid-argument `ValueError`, and on any raise the collection is returned
unchanged because validation precedes every trie mutation.  The uncorrected
claim's iff fails on combine-widened collections (see the counterexample):
there a bounds-valid `add` whose entry length exceeds the constructed bound
instead raises `KeyError` — as the final conjunct states generally — though
it still mutates nothing. -/
theorem C8_add_validation {α : Type _} [DecidableEq α] :
    (∀ (s : Skipgrams α) (g : List α) (k : Nat) (c : Int), s.unwidened →
      (((s.add g k c).1 = none) ↔ (1 ≤ g.length ∧ g.length ≤ s.n ∧ k ≤ s.skip)) ∧
      ((s.add g k c).1 ≠ none →
        (s.add g k c).1 = some .valueError ∧ (s.add g k c).2 = s)) ∧
    (∀ (t : Ngrams α) (g : List α) (c : Int),
      (((t.add g c).1 = none) ↔ (1 ≤ g.length ∧ g.length ≤ t.order)) ∧
      ((t.add g c).1 ≠ none →
        (t.add g c).1 = some .valueError ∧ (t.add g c).2 = t)) ∧
    (∀ (s : Skipgrams α) (g : List α) (k : Nat) (c : Int),
      s.n0 < g.length → g.length ≤ s.n → k ≤ s.skip →
      s.add g k c = (some .keyError, s)) := by
  refine ⟨?_, ?_, ?_⟩
  · intro s g k c hU
    by_cases hv : 1 ≤ g.length ∧ g.length ≤ s.n ∧ k ≤ s.skip
    · rw [Skipgrams.add,
        Skipgrams.addAux_eq s c false hv.1 hv.2.1 hv.2.2 (hU.1 ▸ hv.2.1) (hU.2 ▸ hv.2.2)]
      exact ⟨by simp [hv], by simp⟩
    · have herr : s.add g k c = (some .valueError, s) := by
        rw [Skipgrams.add, Skipgrams.addAux]
        by_cases hlen : 1 ≤ g.length ∧ g.length ≤ s.n
        · have hkk : s.skip < k := by
            rcases not_and_or.mp hv with h | h
            · exact absurd hlen.1 h
            · rcases not_and_or.mp h with h' | h'
              · exact absurd hlen.2 h'
              · omega
          rw [if_neg (by simp [hlen]), if_pos ⟨rfl, hkk⟩]
        · rw [if_pos ⟨rfl, hlen⟩]
      rw [herr]
      exact ⟨by simp [hv], fun _ => ⟨rfl, rfl⟩⟩
  · intro t g c
    by_cases hv : 1 ≤ g.length ∧ g.length ≤ t.order
    · have hok : t.add g c =
          (none, t.triesSet g.length (trieInsert (t.tries g.length) g c)) := by
        rw [Ngrams.add, if_neg (by simp [hv]),
          show t.triesGet g.length = some (t.tries g.length) by
            rw [Ngrams.triesGet, if_pos hv]]
      rw [hok]
      exact ⟨by simp [hv], by simp⟩
    · have herr : t.add g c = (some .valueError, t) := by
        rw [Ngrams.add, if_pos hv]
      rw [herr]
      exact ⟨by simp [hv], fun _ => ⟨rfl, rfl⟩⟩
  · intro s g k c hlo hhi hk
    have hnone : s.triesGet g.length k = none := by
      rw [Skipgrams.triesGet]
      exact if_neg (by omega)
    rw [Skipgrams.add, Skipgrams.addAux, if_neg (by simp; omega),
      if_neg (by simp; omega), hnone]

/-- Witness for C8's amended theorem: a valid add succeeds; an over-long add
raises `ValueError` and leaves the collection unchanged; on a widened
collection a bounds-valid add raises `KeyError`, also mutating nothing. -/
theorem C8_witness :
    ((Skipgrams.fresh 2 1 : Skipgrams Char).add ['a'] 0 5).1 = none ∧
    ((Skipgrams.fresh 2 1 : Skipgrams Char).add ['a', 'b', 'c'] 0 1).1 =
      some .valueError ∧
    ((Skipgrams.fresh 2 1 : Skipgrams Char).add ['a', 'b', 'c'] 0 1).2 =
      Skipgrams.fresh 2 1 ∧
    ((Ngrams.fresh 3 : Ngrams Char).add [] 1).1 = some .valueError ∧
    (((Skipgrams.fresh 1 0 : Skipgrams Char).combineOne
        (Skipgrams.fresh 2 0)).2.add ['c', 'd'] 0 3) =
      (some .keyError,
        ((Skipgrams.fresh 1 0 : Skipgrams Char).combineOne (Skipgrams.fresh 2 0)).2) :=
  ⟨(C8_add_validation.1 (Skipgrams.fresh 2 1) ['a'] 0 5 ⟨rfl, rfl⟩).1.mpr (by decide),
   ((C8_add_validation.1 (Skipgrams.fresh 2 1) ['a', 'b', 'c'] 0 1 ⟨rfl, rfl⟩).2
     (by decide)).1,
   ((C8_add_validation.1 (Skipgrams.fresh 2 1) ['a', 'b', 'c'] 0 1 ⟨rfl, rfl⟩).2
     (by decide)).2,
   ((C8_add_validation.2.1 (Ngrams.fresh 3) [] 1).2 (by decide)).1,
   C8_add_validation.2.2 _ ['c', 'd'] 0 3 (by decide) (by decide) (by decide)⟩

/-- C8 counterexample: the claim's iff fails on a reachable collection.  A
widening `combine` with an empty wider operand succeeds (no entry is
re-inserted, so C2's `KeyError` is not hit) and raises `self.n` to 2 without
allocating strata; afterwards the bounds-valid `add(('a','b'), skip=0)`
raises `KeyError` — not the claimed success, and not a `ValueError` — while
still leaving the collection unchanged. -/
theorem C8_counterexample :
    ((Skipgrams.fresh 1 0 : Skipgrams Char).combineOne (Skipgrams.fresh 2 0)).1 =
      none ∧
    ((Skipgrams.fresh 1 0 : Skipgrams Char).combineOne (Skipgrams.fresh 2 0)).2.n = 2 ∧
    (((Skipgrams.fresh 1 0 : Skipgrams Char).combineOne
        (Skipgrams.fresh 2 0)).2.add ['a', 'b'] 0 1).1 = some .keyError ∧
    some PyErr.keyError ≠ some PyErr.valueError ∧
    (((Skipgrams.fresh 1 0 : Skipgrams Char).combineOne
        (Skipgrams.fresh 2 0)).2.add ['a', 'b'] 0 1).2 =
      ((Skipgrams.fresh 1 0 : Skipgrams Char).combineOne (Skipgrams.fresh 2 0)).2 :=
  ⟨rfl, rfl, rfl, by decide, rfl⟩

/-- C2 (code bug): `Skipgrams.combine` with a wider operand raises `self.n`
but allocates no new strata in `self._tries`, so merging an operand that
actually holds an entry beyond the original bounds raises `KeyError` instead
of completing — contradicting the method's own docstring ("the current
collection's `n` ... will be coerced to enlarge so that the new skipgrams
can fit").  At the failing input the operand holds `('a','b')` with count 1,
the merge raises `KeyError`, and self's `n` attribute was already raised
to 2. -/
theorem C2_combine_widening_keyerror :
    ((Skipgrams.fresh 2 0 : Skipgrams Char).add ['a', 'b'] 0 1).2.count ['a', 'b'] 0 =
      .ok 1 ∧
    ((Skipgrams.fresh 1 0 : Skipgrams Char).combine
        [((Skipgrams.fresh 2 0 : Skipgrams Char).add ['a', 'b'] 0 1).2]).1 =
      some .keyError ∧
    ((Skipgrams.fresh 1 0 : Skipgrams Char).combine
        [((Skipgrams.fresh 2 0 : Skipgrams Char).add ['a', 'b'] 0 1).2]).2.n = 2 :=
  ⟨rfl, rfl, rfl⟩

/-- C10: `add` never validates its `count`; adding with `count=0` stores the
entry, so enumeration yields `(e, 0)` and `total_count(unique=True)` counts
it, yet `count(e)` is 0 and membership is falsy (`False` for the plain
variant, the int 0 for the skip-gram variant). -/
theorem C10_zero_count_add :
    (∀ c : Int, ((Ngrams.fresh 1 : Ngrams Char).add ['a'] c).1 = none) ∧
    ((Ngrams.fresh 1 : Ngrams Char).add ['a'] 0).2.ngramsWithCounts (.intArg 1) none =
      .ok [(['a'], 0)] ∧
    ((Ngrams.fresh 1 : Ngrams Char).add ['a'] 0).2.totalCount .noneArg true = .ok 1 ∧
    ((Ngrams.fresh 1 : Ngrams Char).add ['a'] 0).2.totalCount .noneArg false = .ok 0 ∧
    ((Ngrams.fresh 1 : Ngrams Char).add ['a'] 0).2.count ['a'] = .ok 0 ∧
    ((Ngrams.fresh 1 : Ngrams Char).add ['a'] 0).2.contains ['a'] = .ok false ∧
    ((Skipgrams.fresh 1 0 : Skipgrams Char).add ['a'] 0 0).2.count ['a'] 0 = .ok 0 ∧
    ((Skipgrams.fresh 1 0 : Skipgrams Char).add ['a'] 0 0).2.contains ['a'] = .ok 0 := by
  refine ⟨fun c => rfl, rfl, rfl, rfl, rfl, rfl, rfl, rfl⟩

/-! ## Ngrams (ngrams.py): invariants and the add/count interaction -/

def Ngrams.WF {α : Type _} (s : Ngrams α) : Prop :=
  ∀ m, 1 ≤ m → m ≤ s.order → TrieWF (s.tries m) m

def Ngrams.storedCount {α : Type _} [DecidableEq α] (s : Ngrams α) (g : List α) : Int :=
  (leafVal (s.tries g.length) g).getD 0

def Ngrams.countVal {α : Type _} [DecidableEq α] (s : Ngrams α) (g : List α) : Int :=
  if s.order < g.length then 0 else s.storedCount g

theorem Ngrams.fresh_WFN {α : Type _} (order : Nat) : (Ngrams.fresh order : Ngrams α).WF :=
  fun m h1 _ => trieWF_empty_node m h1

theorem Ngrams.storedCount_freshN {α : Type _} [DecidableEq α] (order : Nat) (g : List α) :
    (Ngrams.fresh order : Ngrams α).storedCount g = 0 := by
  rw [Ngrams.storedCount, Ngrams.fresh, leafVal_node_nil_any]
  rfl

theorem Ngrams.triesSet_triesN {α : Type _} (s : Ngrams α) (m : Nat) (t : Trie α)
    (m' : Nat) : (s.triesSet m t).tries m' = if m' = m then t else s.tries m' := rfl

theorem Ngrams.add_eq {α : Type _} [DecidableEq α] (s : Ngrams α) {g : List α} (c : Int)
    (h1 : 1 ≤ g.length) (h2 : g.length ≤ s.order) :
    s.add g c = (none, s.triesSet g.length (trieInsert (s.tries g.length) g c)) := by
  rw [Ngrams.add, if_neg (by simp; omega),
    show s.triesGet g.length = some (s.tries g.length) by
      rw [Ngrams.triesGet, if_pos ⟨h1, h2⟩]]

theorem Ngrams.triesSet_insert_WFN {α : Type _} [DecidableEq α] {s : Ngrams α}
    (hWF : s.WF) {g : List α} (c : Int) (h1 : 1 ≤ g.length) (h2 : g.length ≤ s.order) :
    (s.triesSet g.length (trieInsert (s.tries g.length) g c)).WF := by
  intro m hm1 hm2
  rw [show (s.triesSet g.length (trieInsert (s.tries g.length) g c)).tries m =
      if m = g.length then trieInsert (s.tries g.length) g c else s.tries m from rfl]
  by_cases hcase : m = g.length
  · subst hcase
    rw [if_pos rfl]
    exact trieInsert_WF (hWF _ h1 h2) rfl (by intro h; rw [h] at h1; simp at h1) c
  · rw [if_neg hcase]
    exact hWF m hm1 hm2

theorem Ngrams.storedCount_triesSet_insertN {α : Type _} [DecidableEq α] {s : Ngrams α}
    (hWF : s.WF) {g' : List α} (c : Int) (h1 : 1 ≤ g'.length) (h2 : g'.length ≤ s.order) :
    ∀ g : List α,
      (s.triesSet g'.length (trieInsert (s.tries g'.length) g' c)).storedCount g =
        s.storedCount g + (if g = g' then c else 0) := by
  intro g
  rw [Ngrams.storedCount, Ngrams.storedCount, Ngrams.triesSet_triesN]
  by_cases hcase : g.length = g'.length
  · rw [if_pos hcase, hcase,
      leafVal_trieInsert (hWF _ h1 h2) hcase rfl
        (by intro h; rw [h] at h1; simp at h1) c]
    by_cases hgg : g = g'
    · rw [if_pos hgg, if_pos hgg]
      rfl
    · rw [if_neg hgg, if_neg hgg]
      omega
  · rw [if_neg hcase, if_neg (fun h => hcase (by rw [h]))]
    omega

theorem Ngrams.count_okN {α : Type _} [DecidableEq α] (s : Ngrams α) {g : List α}
    (h1 : 1 ≤ g.length) : s.count g = .ok (s.countVal g) := by
  rw [Ngrams.count, Ngrams.countVal]
  by_cases hlong : s.order < g.length
  · rw [if_pos hlong, if_pos hlong]
  · rw [if_neg hlong, if_neg hlong]
    have htg : s.triesGet g.length = some (s.tries g.length) := by
      rw [Ngrams.triesGet, if_pos ⟨h1, by omega⟩]
    rw [Ngrams.storedCount]
    cases hinner : get_inner_trie_from_pfx (s.tries g.length) g with
    | none => simp [htg, hinner, leafVal]
    | some t' =>
      cases t' with
      | node m => simp [htg, hinner, leafVal]
      | leaf c =>
        simp only [htg, hinner, leafVal]
        by_cases hc : c = 0
        · simp [hc]
        · simp [hc]

/-- A sequence of `Ngrams.add(entry, count)` calls. -/
def Ngrams.applyAdds {α : Type _} [DecidableEq α] (s : Ngrams α) :
    List (List α × Int) → Option PyErr × Ngrams α
  | [] => (none, s)
  | (g, c) :: rest =>
      match s.add g c with
      | (some e, s') => (some e, s')
      | (none, s') => s'.applyAdds rest

/-- Total count added for one entry by a sequence of plain adds. -/
def opsSumN {α : Type _} [DecidableEq α] (ops : List (List α × Int)) (g : List α) : Int :=
  ((ops.filter fun op => op.1 = g).map Prod.snd).sum

theorem opsSumN_cons {α : Type _} [DecidableEq α] (g0 : List α) (c0 : Int)
    (rest : List (List α × Int)) (g : List α) :
    opsSumN ((g0, c0) :: rest) g = (if g0 = g then c0 else 0) + opsSumN rest g := by
  rw [opsSumN, opsSumN]
  by_cases h : g0 = g
  · rw [List.filter_cons_of_pos (by simpa using h), if_pos h]
    simp
  · rw [List.filter_cons_of_neg (by simpa using h), if_neg h]
    simp

theorem Ngrams.applyAdds_specN {α : Type _} [DecidableEq α] :
    ∀ (ops : List (List α × Int)) (s : Ngrams α), s.WF →
      (∀ op ∈ ops, 1 ≤ op.1.length ∧ op.1.length ≤ s.order) →
      (s.applyAdds ops).1 = none ∧ (s.applyAdds ops).2.WF ∧
        (s.applyAdds ops).2.order = s.order ∧
        ∀ g : List α, (s.applyAdds ops).2.storedCount g = s.storedCount g + opsSumN ops g := by
  intro ops
  induction ops with
  | nil =>
    intro s hWF _
    exact ⟨rfl, hWF, rfl, fun g => by simp [Ngrams.applyAdds, opsSumN]⟩
  | cons op rest ih =>
    intro s hWF hval
    obtain ⟨g0, c0⟩ := op
    have h0 := hval _ (List.mem_cons_self _ _)
    have hadd := Ngrams.add_eq s c0 h0.1 h0.2
    have hred : s.applyAdds ((g0, c0) :: rest) =
        (s.triesSet g0.length (trieInsert (s.tries g0.length) g0 c0)).applyAdds rest := by
      simp only [Ngrams.applyAdds, hadd]
    have hWF1 := Ngrams.triesSet_insert_WFN hWF c0 h0.1 h0.2
    have hval1 : ∀ op ∈ rest, 1 ≤ op.1.length ∧
        op.1.length ≤ (s.triesSet g0.length (trieInsert (s.tries g0.length) g0 c0)).order :=
      fun op hop => hval op (List.mem_cons_of_mem _ hop)
    obtain ⟨hfst, hWF2, hord, hsc⟩ := ih _ hWF1 hval1
    rw [hred]
    refine ⟨hfst, hWF2, hord, fun g => ?_⟩
    rw [hsc g, Ngrams.storedCount_triesSet_insertN hWF c0 h0.1 h0.2 g, opsSumN_cons]
    by_cases hcond : g = g0
    · rw [if_pos hcond, if_pos hcond.symm]
      omega
    · rw [if_neg hcond, if_neg (fun h => hcond h.symm)]
      omega

theorem Ngrams.ngramsWithCounts_intArg {α : Type _} [DecidableEq α] (s : Ngrams α)
    (pfxArg : Option (List α)) {i : Int} {t : Trie α} (h : s.triesGetI i = some t) :
    s.ngramsWithCounts (.intArg i) pfxArg = .ok (flattened_ngrams_with_counts t pfxArg) := by
  rw [Ngrams.ngramsWithCounts]
  show s.wcLoop pfxArg [i] = _
  simp only [Ngrams.wcLoop, h]
  show Except.ok (flattened_ngrams_with_counts t pfxArg ++ []) = _
  rw [List.append_nil]

theorem leafVal_eq_some {α : Type _} [DecidableEq α] {t : Trie α} {g : List α} {c : Int} :
    leafVal t g = some c ↔ get_inner_trie_from_pfx t g = some (.leaf c) := by
  rw [leafVal]
  cases h : get_inner_trie_from_pfx t g with
  | none => simp
  | some t' =>
    cases t' with
    | leaf c0 => simp
    | node m => simp

/-- C5: for a valid order `L` and any token-list argument `p`,
`ngrams_with_counts(order=L, prefix=p)` yields exactly the pairs `(g, c)`
with `g` a stored length-`L` entry extending `p` and `c` its stored count
(each once — in particular `(p, count)` itself when `p` is stored at full
length); the yielded counts agree with `count`; and when `p` is longer than
`L` or no stored length-`L` entry extends `p`, the result is empty. -/
theorem C5_enumeration_with_pfx {α : Type _} [DecidableEq α] (s : Ngrams α)
    (hWF : s.WF) (L : Nat) (hL1 : 1 ≤ L) (hL2 : L ≤ s.order) (pfx : List α) :
    s.ngramsWithCounts (.intArg (L : Int)) (some pfx) =
      .ok (flattened_ngrams_with_counts (s.tries L) (some pfx)) ∧
    (∀ (g : List α) (c : Int),
      ((g, c) ∈ flattened_ngrams_with_counts (s.tries L) (some pfx) ↔
        (g.length = L ∧ pfx <+: g ∧ leafVal (s.tries L) g = some c))) ∧
    ((flattened_ngrams_with_counts (s.tries L) (some pfx)).map Prod.fst).Nodup ∧
    (L < pfx.length → flattened_ngrams_with_counts (s.tries L) (some pfx) = []) ∧
    (∀ (g : List α) (c : Int),
      (g, c) ∈ flattened_ngrams_with_counts (s.tries L) (some pfx) →
        s.count g = .ok c) := by
  have hWFL := hWF L hL1 hL2
  have htg : s.triesGetI (L : Int) = some (s.tries L) := by
    rw [Ngrams.triesGetI, if_pos ⟨by exact_mod_cast hL1, by exact_mod_cast hL2⟩]
    norm_num
  refine ⟨?_, fun g c => ?_, flattened_nodup hWFL (some pfx), fun hlong => ?_,
    fun g c hm => ?_⟩
  · exact Ngrams.ngramsWithCounts_intArg s (some pfx) htg
  · constructor
    · intro hm
      have h2 := (mem_flattened hWFL (some pfx) g c).mp hm
      exact ⟨leafVal_length hWFL h2.2, h2.1, h2.2⟩
    · rintro ⟨_, hpre, hlv⟩
      exact (mem_flattened hWFL (some pfx) g c).mpr ⟨hpre, hlv⟩
  · exact flattened_eq_none (getInner_none_of_long hWFL hlong)
  · have h2 := (mem_flattened hWFL (some pfx) g c).mp hm
    have hglen : g.length = L := leafVal_length hWFL h2.2
    have htg2 : s.triesGet L = some (s.tries L) := by
      rw [Ngrams.triesGet, if_pos ⟨hL1, hL2⟩]
    have hinner := leafVal_eq_some.mp h2.2
    rw [Ngrams.count, if_neg (by omega)]
    simp only [hglen, htg2, hinner]
    by_cases hc : c = 0
    · simp [hc]
    · simp [hc]

/-- Witness for C5 at a concrete collection holding `('a','b','c')` once. -/
theorem C5_witness :
    (((Ngrams.fresh 3 : Ngrams Char).applyAdds [(['a', 'b', 'c'], 1)]).2.ngramsWithCounts
        (.intArg ((3 : Nat) : Int)) (some ['a', 'b'])) = .ok [(['a', 'b', 'c'], 1)] := by
  have hWF := (Ngrams.applyAdds_specN [(['a', 'b', 'c'], 1)] (Ngrams.fresh 3)
    (Ngrams.fresh_WFN 3) (by decide)).2.1
  have hord := (Ngrams.applyAdds_specN [(['a', 'b', 'c'], 1)] (Ngrams.fresh 3)
    (Ngrams.fresh_WFN 3) (by decide)).2.2.1
  have h := (C5_enumeration_with_pfx _ hWF 3 (by decide)
    (by rw [hord]; exact Nat.le_refl 3) ['a', 'b']).1
  rw [h]
  rfl

/-! ## Claim C6: the membership test -/

/-- The value `__contains__`'s scan produces: the first nonzero value of `f`
along the scan list, else 0. -/
def firstNonzero (f : Nat → Int) : List Nat → Int
  | [] => 0
  | k :: rest => if f k ≠ 0 then f k else firstNonzero f rest

theorem firstNonzero_ne_zero (f : Nat → Int) :
    ∀ l : List Nat, (firstNonzero f l ≠ 0 ↔ ∃ k ∈ l, f k ≠ 0) := by
  intro l
  induction l with
  | nil => simp [firstNonzero]
  | cons k rest ih =>
    rw [firstNonzero]
    by_cases hk : f k ≠ 0
    · rw [if_pos hk]
      simp only [List.mem_cons]
      exact ⟨fun _ => ⟨k, Or.inl rfl, hk⟩, fun _ => hk⟩
    · rw [if_neg hk, ih]
      simp only [List.mem_cons, not_not] at hk ⊢
      constructor
      · rintro ⟨k', hk', hne⟩
        exact ⟨k', Or.inr hk', hne⟩
      · rintro ⟨k', hk' | hk', hne⟩
        · subst hk'
          exact absurd hk hne
        · exact ⟨k', hk', hne⟩

theorem Skipgrams.containsScan_ok {α : Type _} [DecidableEq α] (s : Skipgrams α)
    (hU : s.unwidened) {g : List α} (h1 : 1 ≤ g.length) :
    ∀ ks : List Nat, (∀ k ∈ ks, k ≤ s.skip) →
      s.containsScan g ks = .ok (firstNonzero (s.countVal g) ks) := by
  intro ks
  induction ks with
  | nil => intro _; rfl
  | cons k rest ih =>
    intro hks
    have hc := Skipgrams.count_ok s hU h1 (hks k (List.mem_cons_self _ _))
    rw [show s.containsScan g (k :: rest) = (do
        let c ← s.count g k
        if c ≠ 0 then Except.ok c else s.containsScan g rest) from rfl, hc]
    show (if s.countVal g k ≠ 0 then Except.ok (s.countVal g k)
      else s.containsScan g rest) = _
    rw [firstNonzero]
    by_cases hv : s.countVal g k ≠ 0
    · rw [if_pos hv, if_pos hv]
    · rw [if_neg hv, if_neg hv, ih fun k' hk' => hks k' (List.mem_cons_of_mem _ hk')]

/-- C6 counterexample: on a collection holding `('a',)` with count 2, the
skip-gram membership test returns the int 2 — not a boolean (Python's
`False`/`True` are the ints 0/1) — refuting "the membership test (contains)
returns a boolean". -/
theorem C6_counterexample :
    ((Skipgrams.fresh 1 0 : Skipgrams Char).add ['a'] 0 2).2.contains ['a'] = .ok 2 ∧
    ¬((2 : Int) = 0 ∨ (2 : Int) = 1) :=
  ⟨rfl, by decide⟩

/-- C6 (amended): on any skip-gram collection whose declared bounds still
match its constructed strata (every state reached without a widening
`combine`), `Skipgrams.__contains__` scans `skip = 0, 1, ..., max_skip` and
returns the first nonzero count itself (an int, not a bool), or 0; its
truthiness is equivalent to some skip having nonzero — for non-negative
counts, positive — count.  The plain `ngrams.py` variant returns a strict
boolean `bool(count(e))`.  On a combine-widened collection the test can
instead raise: the final conjunct shows that for entry lengths beyond the
constructed bound but within the raised one, the scan's very first `count`
indexes a missing stratum and raises `KeyError`. -/
theorem C6_contains_amended {α : Type _} [DecidableEq α] :
    (∀ (s : Skipgrams α) (g : List α), s.unwidened → 1 ≤ g.length →
      s.contains g = .ok (firstNonzero (s.countVal g) (List.range (s.skip + 1))) ∧
      (firstNonzero (s.countVal g) (List.range (s.skip + 1)) ≠ 0 ↔
        ∃ k, k ≤ s.skip ∧ s.countVal g k ≠ 0) ∧
      ((∀ k, 0 ≤ s.countVal g k) →
        (firstNonzero (s.countVal g) (List.range (s.skip + 1)) ≠ 0 ↔
          ∃ k, k ≤ s.skip ∧ 0 < s.countVal g k))) ∧
    (∀ (t : Ngrams α) (g : List α), 1 ≤ g.length →
      t.contains g = .ok (decide (t.countVal g ≠ 0)) ∧
      (0 ≤ t.countVal g → (decide (t.countVal g ≠ 0) = true ↔ 0 < t.countVal g))) ∧
    (∀ (s : Skipgrams α) (g : List α), s.n0 < g.length → g.length ≤ s.n →
      s.contains g = .error .keyError) := by
  refine ⟨?_, ?_, ?_⟩
  · intro s g hU h1
    have hmain := Skipgrams.containsScan_ok s hU h1 (List.range (s.skip + 1))
      fun k hk => by
        have := List.mem_range.mp hk
        omega
    have hiff : firstNonzero (s.countVal g) (List.range (s.skip + 1)) ≠ 0 ↔
        ∃ k, k ≤ s.skip ∧ s.countVal g k ≠ 0 := by
      rw [firstNonzero_ne_zero]
      constructor
      · rintro ⟨k, hk, hne⟩
        exact ⟨k, by have := List.mem_range.mp hk; omega, hne⟩
      · rintro ⟨k, hk, hne⟩
        exact ⟨k, List.mem_range.mpr (by omega), hne⟩
    refine ⟨hmain, hiff, fun hnn => ?_⟩
    rw [hiff]
    constructor
    · rintro ⟨k, hk, hne⟩
      exact ⟨k, hk, by have := hnn k; omega⟩
    · rintro ⟨k, hk, hpos⟩
      exact ⟨k, hk, by omega⟩
  · intro t g h1
    have hc := Ngrams.count_okN t h1
    constructor
    · rw [show t.contains g = (do
          let c ← t.count g
          Except.ok (decide (c ≠ 0))) from rfl, hc]
      rfl
    · intro hnn
      constructor
      · intro hd
        have := of_decide_eq_true hd
        omega
      · intro hpos
        exact decide_eq_true (by omega)
  · intro s g hlo hhi
    have hcount : s.count g 0 = .error .keyError := by
      rw [Skipgrams.count, if_neg (by omega), if_neg (by omega),
        show s.triesGet g.length 0 = none from by
          rw [Skipgrams.triesGet]
          exact if_neg (by omega)]
    rw [Skipgrams.contains, List.range_succ_eq_map]
    show (do
        let c ← s.count g 0
        if c ≠ 0 then Except.ok c
        else s.containsScan g ((List.range s.skip).map Nat.succ)) =
      Except.error PyErr.keyError
    rw [hcount]
    rfl

/-- Witness for C6's amended theorem at a concrete collection, plus the
widened-collection KeyError at a concrete widened state. -/
theorem C6_witness :
    ((Skipgrams.fresh 1 1 : Skipgrams Char).add ['a'] 1 2).2.contains ['a'] =
      .ok (firstNonzero
        ((((Skipgrams.fresh 1 1 : Skipgrams Char).add ['a'] 1 2).2).countVal ['a'])
        (List.range ((((Skipgrams.fresh 1 1 : Skipgrams Char).add ['a'] 1 2).2).skip + 1))) ∧
    ((Skipgrams.fresh 1 0 : Skipgrams Char).combineOne
        (Skipgrams.fresh 2 0)).2.contains ['a', 'b'] = .error .keyError :=
  ⟨(C6_contains_amended.1 _ ['a'] ⟨rfl, rfl⟩ (by decide)).1,
   C6_contains_amended.2.2 _ ['a', 'b'] (by decide) (by decide)⟩

/-! ## Claim C9: read-only traversals do not mutate -/

/-- A raw `defaultdict` read `d[token]`: returns the existing child, or
creates an empty child, appending it in insertion order. -/
def ddGet {α : Type _} [DecidableEq α] (l : List (α × Trie α)) (tok : α) :
    Trie α × List (α × Trie α) :=
  match dictFind l tok with
  | some ch => (ch, l)
  | none => (.node [], l ++ [(tok, .node [])])

/-- `_get_inner_trie_from_prefix` with the `defaultdict` effect made
explicit: the second component is the trie as left behind by the descent.
The source's `token not in trie` test guards the `trie[token]` read, which is
the only potentially mutating step. -/
def get_inner_trie_from_pfx_st {α : Type _} [DecidableEq α] :
    Trie α → List α → Option (Trie α) × Trie α
  | t, [] => (some t, t)
  | .leaf c, _ :: _ => (none, .leaf c)
  | .node l, tok :: rest =>
      if (dictFind l tok).isSome then
        let p := ddGet l tok
        let r := get_inner_trie_from_pfx_st p.1 rest
        (r.1, .node (dictSet p.2 tok r.2))
      else (none, .node l)

theorem dictSet_self_of_find {α β : Type _} [DecidableEq α] {l : List (α × β)} {k : α}
    {v : β} (h : dictFind l k = some v) : dictSet l k v = l := by
  induction l with
  | nil => simp [dictFind] at h
  | cons p rest ih =>
    obtain ⟨k0, v0⟩ := p
    rw [dictFind] at h
    rw [dictSet]
    by_cases hk : k = k0
    · subst hk
      rw [if_pos rfl] at h
      injection h with h
      subst h
      rw [if_pos rfl]
    · rw [if_neg hk] at h
      rw [if_neg hk, ih h]

/-- C9: the prefix descent used by `count`, the membership test and the
enumerations (including `combine`'s reads of `others`) leaves the trie
exactly as it was — because key membership is checked before the
`defaultdict` is indexed, no read ever creates an entry — and it computes
the same answer as the pure descent. -/
theorem C9_reads_do_not_mutate {α : Type _} [DecidableEq α] :
    ∀ (p : List α) (t : Trie α),
      (get_inner_trie_from_pfx_st t p).2 = t ∧
      (get_inner_trie_from_pfx_st t p).1 = get_inner_trie_from_pfx t p := by
  intro p
  induction p with
  | nil =>
    intro t
    cases t with
    | leaf c => exact ⟨rfl, rfl⟩
    | node l => exact ⟨rfl, rfl⟩
  | cons tok rest ih =>
    intro t
    cases t with
    | leaf c => exact ⟨rfl, rfl⟩
    | node l =>
      cases hfind : dictFind l tok with
      | none =>
        rw [get_inner_trie_from_pfx_st, if_neg (by simp [hfind])]
        exact ⟨rfl, (getInner_cons_none rest hfind).symm⟩
      | some ch =>
        rw [get_inner_trie_from_pfx_st, if_pos (by simp [hfind])]
        simp only [ddGet, hfind]
        obtain ⟨hst, hres⟩ := ih ch
        rw [hst, hres, dictSet_self_of_find hfind]
        exact ⟨rfl, (getInner_cons_some rest hfind).symm⟩

/-! ## Claim C3: combine sums per-entry counts -/

theorem sum_ite_mem {δ : Type _} [DecidableEq δ] (p : δ) (v : Int) :
    ∀ l : List δ, l.Nodup →
      ((l.map fun q => if q = p then v else 0).sum = if p ∈ l then v else 0) := by
  intro l
  induction l with
  | nil => intro _; simp
  | cons q rest ih =>
    intro hnd
    have hnd' := List.nodup_cons.mp hnd
    rw [List.map_cons, List.sum_cons, ih hnd'.2]
    by_cases hq : q = p
    · subst hq
      rw [if_pos rfl, if_pos (List.mem_cons_self _ _), if_neg hnd'.1]
      omega
    · rw [if_neg hq]
      by_cases hp : p ∈ rest
      · rw [if_pos hp, if_pos (List.mem_cons_of_mem _ hp)]
        omega
      · rw [if_neg hp, if_neg (by
          rw [List.mem_cons]
          rintro (h | h)
          · exact hq h.symm
          · exact hp h)]
        omega

theorem resolveOrders_ints (l : List Int) (mo : Nat) :
    resolveOrders (.iterArg (l.map OrderItem.int)) mo = .ok l := by
  rw [resolveOrders]
  rw [if_pos (by
    rw [List.all_eq_true]
    rintro x hx
    obtain ⟨i, _, rfl⟩ := List.mem_map.mp hx
    rfl)]
  congr 1
  induction l with
  | nil => rfl
  | cons i rest ih =>
    rw [List.map_cons, List.filterMap_cons]
    show i :: List.filterMap _ (rest.map OrderItem.int) = i :: rest
    rw [ih]

theorem Ngrams.wcLoop_nats {α : Type _} [DecidableEq α] (o : Ngrams α)
    (pfxArg : Option (List α)) :
    ∀ ms : List Nat, (∀ m ∈ ms, 1 ≤ m ∧ m ≤ o.order) →
      o.wcLoop pfxArg (ms.map fun m : Nat => (m : Int)) =
        .ok (ms.flatMap fun m => flattened_ngrams_with_counts (o.tries m) pfxArg) := by
  intro ms
  induction ms with
  | nil => intro _; rfl
  | cons m rest ih =>
    intro hms
    have h0 := hms m (List.mem_cons_self _ _)
    have htg : o.triesGetI (m : Int) = some (o.tries m) := by
      rw [Ngrams.triesGetI, if_pos ⟨by exact_mod_cast h0.1, by exact_mod_cast h0.2⟩]
      simp
    rw [List.map_cons]
    simp only [Ngrams.wcLoop, htg]
    rw [ih fun m' hm' => hms m' (List.mem_cons_of_mem _ hm')]
    rw [List.flatMap_cons]
    rfl

theorem mem_dedupKeepFirstAux {β : Type _} [DecidableEq β] :
    ∀ (l seen : List β) (a : β),
      (a ∈ dedupKeepFirstAux seen l ↔ a ∈ l ∧ a ∉ seen) := by
  intro l
  induction l with
  | nil =>
    intro seen a
    simp [dedupKeepFirstAux]
  | cons x xs ih =>
    intro seen a
    by_cases hx : x ∈ seen
    · rw [dedupKeepFirstAux, if_pos hx, ih]
      constructor
      · rintro ⟨hm, hs⟩
        exact ⟨List.mem_cons_of_mem _ hm, hs⟩
      · rintro ⟨hm, hs⟩
        cases List.mem_cons.mp hm with
        | inl h => exact absurd (h ▸ hx) hs
        | inr h => exact ⟨h, hs⟩
    · rw [dedupKeepFirstAux, if_neg hx]
      by_cases ha : a = x
      · subst ha
        simp [List.mem_cons, hx]
      · rw [List.mem_cons]
        simp only [ha, false_or, ih, List.mem_cons]

theorem mem_dedupKeepFirst {β : Type _} [DecidableEq β] (l : List β) (a : β) :
    a ∈ dedupKeepFirst l ↔ a ∈ l := by
  rw [dedupKeepFirst, mem_dedupKeepFirstAux]
  simp

theorem dedupKeepFirstAux_nodup {β : Type _} [DecidableEq β] :
    ∀ (l seen : List β), (dedupKeepFirstAux seen l).Nodup := by
  intro l
  induction l with
  | nil =>
    intro seen
    simp [dedupKeepFirstAux]
  | cons x xs ih =>
    intro seen
    by_cases hx : x ∈ seen
    · rw [dedupKeepFirstAux, if_pos hx]
      exact ih seen
    · rw [dedupKeepFirstAux, if_neg hx]
      refine List.nodup_cons.mpr ⟨fun hmem => ?_, ih (x :: seen)⟩
      exact ((mem_dedupKeepFirstAux xs (x :: seen) x).mp hmem).2 (List.mem_cons_self _ _)

theorem dedupKeepFirst_nodup {β : Type _} [DecidableEq β] (l : List β) :
    (dedupKeepFirst l).Nodup :=
  dedupKeepFirstAux_nodup l []

/-- After a sequence of valid adds, an entry has a stored leaf in its stratum
iff it was one of the added entries or already had one. -/
theorem Ngrams.applyAdds_leafNone {α : Type _} [DecidableEq α] :
    ∀ (ops : List (List α × Int)) (s : Ngrams α), s.WF →
      (∀ op ∈ ops, 1 ≤ op.1.length ∧ op.1.length ≤ s.order) →
      ∀ g : List α,
        (leafVal ((s.applyAdds ops).2.tries g.length) g = none ↔
          (g ∉ ops.map Prod.fst ∧ leafVal (s.tries g.length) g = none)) := by
  intro ops
  induction ops with
  | nil =>
    intro s _ _ g
    simp [Ngrams.applyAdds]
  | cons op rest ih =>
    intro s hWF hval g
    obtain ⟨g0, c0⟩ := op
    have h0 := hval _ (List.mem_cons_self _ _)
    have hadd := Ngrams.add_eq s c0 h0.1 h0.2
    have hred : s.applyAdds ((g0, c0) :: rest) =
        (s.triesSet g0.length (trieInsert (s.tries g0.length) g0 c0)).applyAdds rest := by
      simp only [Ngrams.applyAdds, hadd]
    have hWF1 := Ngrams.triesSet_insert_WFN hWF c0 h0.1 h0.2
    have hval1 : ∀ op ∈ rest, 1 ≤ op.1.length ∧
        op.1.length ≤ (s.triesSet g0.length (trieInsert (s.tries g0.length) g0 c0)).order :=
      fun op hop => hval op (List.mem_cons_of_mem _ hop)
    rw [hred, ih _ hWF1 hval1 g]
    by_cases hg : g = g0
    · subst hg
      have hsome : leafVal ((s.triesSet g.length
          (trieInsert (s.tries g.length) g c0)).tries g.length) g =
          some ((leafVal (s.tries g.length) g).getD 0 + c0) := by
        rw [Ngrams.triesSet_triesN, if_pos rfl,
          leafVal_trieInsert (hWF _ h0.1 h0.2) rfl rfl
            (by intro h; rw [h] at h0; simp at h0) c0, if_pos rfl]
      rw [hsome]
      simp
    · have heq : (s.triesSet g0.length (trieInsert (s.tries g0.length) g0 c0)).tries
          g.length = if g.length = g0.length then trieInsert (s.tries g0.length) g0 c0
          else s.tries g.length := Ngrams.triesSet_triesN s g0.length _ g.length
      by_cases hlen : g.length = g0.length
      · rw [heq, if_pos hlen,
          leafVal_trieInsert (hWF _ h0.1 h0.2) hlen rfl
            (by intro h; rw [h] at h0; simp at h0) c0, if_neg hg]
        simp only [List.map_cons, List.mem_cons, hg, false_or]
        rw [hlen]
      · rw [heq, if_neg hlen]
        simp [hg]

/-- An entry appears among the ngrams yielded for a list of strata iff its
length is one of the selected orders and it has a stored leaf there. -/
theorem wc_flatMap_fst_mem {α : Type _} [DecidableEq α] (S : Ngrams α) (hWF : S.WF)
    (ms : List Nat) (hms : ∀ m ∈ ms, 1 ≤ m ∧ m ≤ S.order) (g : List α) :
    (g ∈ ((ms.flatMap fun m => flattened_ngrams_with_counts (S.tries m) none).map
        Prod.fst) ↔ (g.length ∈ ms ∧ leafVal (S.tries g.length) g ≠ none)) := by
  rw [List.mem_map]
  constructor
  · rintro ⟨⟨g', c⟩, hp, rfl⟩
    obtain ⟨m, hm, hpm⟩ := List.mem_flatMap.mp hp
    have hWFm := hWF m (hms m hm).1 (hms m hm).2
    have hlv := ((mem_flattened hWFm none g' c).mp hpm).2
    have hlen := leafVal_length hWFm hlv
    refine ⟨by rw [hlen]; exact hm, ?_⟩
    rw [hlen, hlv]
    simp
  · rintro ⟨hmem, hne⟩
    cases hlv : leafVal (S.tries g.length) g with
    | none => exact absurd hlv hne
    | some c =>
      refine ⟨(g, c), List.mem_flatMap.mpr ⟨g.length, hmem, ?_⟩, rfl⟩
      exact (mem_flattened (hWF g.length (hms _ hmem).1 (hms _ hmem).2) none g c).mpr
        ⟨List.nil_prefix, hlv⟩

/-- Distinct selected orders yield each stored entry at most once: stratum
`m` only contains entries of length `m`. -/
theorem wc_flatMap_fst_nodup {α : Type _} [DecidableEq α] (S : Ngrams α) (hWF : S.WF) :
    ∀ ms : List Nat, ms.Nodup → (∀ m ∈ ms, 1 ≤ m ∧ m ≤ S.order) →
      ((ms.flatMap fun m => flattened_ngrams_with_counts (S.tries m) none).map
        Prod.fst).Nodup := by
  intro ms
  induction ms with
  | nil =>
    intro _ _
    simp
  | cons m rest ih =>
    intro hnd hbounds
    have hm0 := hbounds m (List.mem_cons_self _ _)
    have hbounds' : ∀ m' ∈ rest, 1 ≤ m' ∧ m' ≤ S.order :=
      fun m' hm' => hbounds m' (List.mem_cons_of_mem _ hm')
    rw [List.flatMap_cons, List.map_append]
    refine List.Nodup.append (flattened_nodup (hWF m hm0.1 hm0.2) none)
      (ih (List.nodup_cons.mp hnd).2 hbounds') ?_
    intro g hg1 hg2
    obtain ⟨⟨g1, c⟩, hp, hge⟩ := List.mem_map.mp hg1
    have hlv := ((mem_flattened (hWF m hm0.1 hm0.2) none g1 c).mp hp).2
    have hlen := leafVal_length (hWF m hm0.1 hm0.2) hlv
    have hlenrest := ((wc_flatMap_fst_mem S hWF rest hbounds' g).mp hg2).1
    rw [← hge, hlen] at hlenrest
    exact (List.nodup_cons.mp hnd).1 hlenrest

theorem sum_map_add_int {δ : Type _} (f g : δ → Int) :
    ∀ l : List δ, (l.map fun x => f x + g x).sum = (l.map f).sum + (l.map g).sum := by
  intro l
  induction l with
  | nil => simp
  | cons x xs ih =>
    simp only [List.map_cons, List.sum_cons, ih]
    ring

/-- Summing per-entry accumulated counts over any duplicate-free cover of the
added entries gives back the plain sum of all added counts. -/
theorem sum_map_opsSumN {α : Type _} [DecidableEq α] :
    ∀ (ops : List (List α × Int)) (L : List (List α)), L.Nodup →
      (∀ op ∈ ops, op.1 ∈ L) →
      ((L.map fun g => opsSumN ops g).sum = (ops.map Prod.snd).sum) := by
  intro ops
  induction ops with
  | nil =>
    intro L _ _
    simp [opsSumN]
  | cons op rest ih =>
    intro L hnd hmem
    obtain ⟨g0, c0⟩ := op
    have h1 : (L.map fun g => opsSumN ((g0, c0) :: rest) g) =
        L.map fun g => ((if g = g0 then c0 else 0) + opsSumN rest g) := by
      apply List.map_congr_left
      intro g _
      rw [opsSumN_cons]
      by_cases h : g0 = g
      · rw [if_pos h, if_pos h.symm]
      · rw [if_neg h, if_neg (fun hh => h hh.symm)]
    rw [h1, sum_map_add_int, sum_ite_mem g0 c0 L hnd,
      if_pos (hmem (g0, c0) (List.mem_cons_self _ _)),
      ih L hnd (fun op hop => hmem op (List.mem_cons_of_mem _ hop)),
      List.map_cons, List.sum_cons]

theorem sum_snd_eq_sum_fst_map {α : Type _} (F : List (List α × Int))
    (w : List α → Int) (h : ∀ p ∈ F, p.2 = w p.1) :
    (F.map Prod.snd).sum = ((F.map Prod.fst).map w).sum := by
  rw [List.map_map]
  exact congrArg List.sum (List.map_congr_left h)

/-- Restricting the add history to the selected lengths does not change any
selected entry's accumulated count. -/
theorem opsSumN_filter_len {α : Type _} [DecidableEq α] (ms : List Nat) (g : List α)
    (hg : g.length ∈ ms) :
    ∀ ops : List (List α × Int),
      opsSumN (ops.filter fun op => op.1.length ∈ ms) g = opsSumN ops g := by
  intro ops
  induction ops with
  | nil => rfl
  | cons op rest ih =>
    obtain ⟨g0, c0⟩ := op
    by_cases hP : g0.length ∈ ms
    · rw [List.filter_cons, if_pos (by simpa using hP), opsSumN_cons, opsSumN_cons, ih]
    · have hne : ¬g0 = g := fun h => hP (by rw [h]; exact hg)
      rw [List.filter_cons, if_neg (by simpa using hP), ih, opsSumN_cons,
        if_neg hne, zero_add]

theorem mem_range_succ_map (n m : Nat) :
    m ∈ (List.range n).map (fun i => i + 1) ↔ 1 ≤ m ∧ m ≤ n := by
  rw [List.mem_map]
  constructor
  · rintro ⟨i, hi, rfl⟩
    have := List.mem_range.mp hi
    omega
  · rintro ⟨h1, h2⟩
    exact ⟨m - 1, List.mem_range.mpr (by omega), by omega⟩

/-- The heart of `total_count` on a collection built by a sequence of valid
adds: for any duplicate-free in-range list of orders, the stratum loop
succeeds, the counts it yields sum to the total count added for entries of
the selected lengths, and it yields exactly one pair per distinct added
entry of a selected length. -/
theorem Ngrams.totalCount_strata {α : Type _} [DecidableEq α]
    (n : Nat) (ops : List (List α × Int))
    (hval : ∀ op ∈ ops, 1 ≤ op.1.length ∧ op.1.length ≤ n)
    (ms : List Nat) (hnd : ms.Nodup) (hms : ∀ m ∈ ms, 1 ≤ m ∧ m ≤ n) :
    ((Ngrams.fresh n : Ngrams α).applyAdds ops).2.wcLoop none
        (ms.map fun m : Nat => (m : Int)) =
      .ok (ms.flatMap fun m => flattened_ngrams_with_counts
        ((((Ngrams.fresh n : Ngrams α).applyAdds ops).2).tries m) none) ∧
    ((ms.flatMap fun m => flattened_ngrams_with_counts
        ((((Ngrams.fresh n : Ngrams α).applyAdds ops).2).tries m) none).map
          Prod.snd).sum =
      ((ops.filter fun op => op.1.length ∈ ms).map Prod.snd).sum ∧
    (ms.flatMap fun m => flattened_ngrams_with_counts
        ((((Ngrams.fresh n : Ngrams α).applyAdds ops).2).tries m) none).length =
      ((dedupKeepFirst (ops.map Prod.fst)).filter fun g => g.length ∈ ms).length := by
  obtain ⟨hfst, hWF, hord, hsc⟩ :=
    Ngrams.applyAdds_specN ops (Ngrams.fresh n) (Ngrams.fresh_WFN n) hval
  set S := ((Ngrams.fresh n : Ngrams α).applyAdds ops).2 with hS
  have hordn : S.order = n := hord
  have hmsS : ∀ m ∈ ms, 1 ≤ m ∧ m ≤ S.order := by
    intro m hm
    rw [hordn]
    exact hms m hm
  have hmemF : ∀ g : List α,
      (g ∈ ((ms.flatMap fun m => flattened_ngrams_with_counts (S.tries m) none).map
        Prod.fst) ↔ (g.length ∈ ms ∧ g ∈ ops.map Prod.fst)) := by
    intro g
    rw [wc_flatMap_fst_mem S hWF ms hmsS g]
    have hchar := Ngrams.applyAdds_leafNone ops (Ngrams.fresh n) (Ngrams.fresh_WFN n) hval g
    have hfreshnone : leafVal ((Ngrams.fresh n : Ngrams α).tries g.length) g = none :=
      leafVal_node_nil_any g
    constructor
    · rintro ⟨h1, h2⟩
      refine ⟨h1, ?_⟩
      by_contra hnot
      exact h2 (hchar.mpr ⟨hnot, hfreshnone⟩)
    · rintro ⟨h1, h2⟩
      exact ⟨h1, fun hnone => (hchar.mp hnone).1 h2⟩
  have hnodupF := wc_flatMap_fst_nodup S hWF ms hnd hmsS
  have hLnodup : ((dedupKeepFirst (ops.map Prod.fst)).filter
      fun g => g.length ∈ ms).Nodup :=
    (dedupKeepFirst_nodup _).filter _
  have hmemL : ∀ g : List α,
      (g ∈ ((dedupKeepFirst (ops.map Prod.fst)).filter fun g => g.length ∈ ms) ↔
        (g ∈ ops.map Prod.fst ∧ g.length ∈ ms)) := by
    intro g
    rw [List.mem_filter, mem_dedupKeepFirst]
    simp
  have hperm : List.Perm
      ((ms.flatMap fun m => flattened_ngrams_with_counts (S.tries m) none).map Prod.fst)
      ((dedupKeepFirst (ops.map Prod.fst)).filter fun g => g.length ∈ ms) :=
    (List.perm_ext_iff_of_nodup hnodupF hLnodup).mpr
      (fun g => (hmemF g).trans (and_comm.trans (hmemL g).symm))
  have hsnd : ∀ p ∈ (ms.flatMap fun m => flattened_ngrams_with_counts (S.tries m) none),
      p.2 = opsSumN ops p.1 := by
    rintro ⟨g, c⟩ hp
    obtain ⟨m, hm, hpm⟩ := List.mem_flatMap.mp hp
    have hWFm := hWF m (hmsS m hm).1 (hmsS m hm).2
    have hlv := ((mem_flattened hWFm none g c).mp hpm).2
    have hlen := leafVal_length hWFm hlv
    have hstored : S.storedCount g = c := by
      rw [Ngrams.storedCount, hlen, hlv]
      rfl
    have := hsc g
    rw [Ngrams.storedCount_freshN, zero_add] at this
    show c = opsSumN ops g
    rw [← hstored, this]
  have hcover : ∀ op ∈ (ops.filter fun op => op.1.length ∈ ms),
      op.1 ∈ ((dedupKeepFirst (ops.map Prod.fst)).filter fun g => g.length ∈ ms) := by
    intro op hop
    have hmf := List.mem_filter.mp hop
    exact (hmemL op.1).mpr ⟨List.mem_map_of_mem _ hmf.1, by simpa using hmf.2⟩
  refine ⟨Ngrams.wcLoop_nats S none ms hmsS, ?_, ?_⟩
  · rw [sum_snd_eq_sum_fst_map _ (opsSumN ops) hsnd,
      (List.Perm.map (opsSumN ops) hperm).sum_eq,
      List.map_congr_left (fun g hgL =>
        (opsSumN_filter_len ms g ((hmemL g).mp hgL).2 ops).symm),
      sum_map_opsSumN (ops.filter fun op => op.1.length ∈ ms) _ hLnodup hcover]
  · rw [← List.length_map _ Prod.fst]
    exact hperm.length_eq

/-- Evaluation of `total_count` whenever the order argument resolves to a
duplicate-free in-range list of orders. -/
theorem Ngrams.totalCount_eval {α : Type _} [DecidableEq α]
    (n : Nat) (ops : List (List α × Int))
    (hval : ∀ op ∈ ops, 1 ≤ op.1.length ∧ op.1.length ≤ n)
    (ms : List Nat) (hnd : ms.Nodup) (hms : ∀ m ∈ ms, 1 ≤ m ∧ m ≤ n)
    (arg : OrderArg)
    (hres : resolveOrders arg (((Ngrams.fresh n : Ngrams α).applyAdds ops).2).order =
      .ok (ms.map fun m : Nat => (m : Int))) :
    ((Ngrams.fresh n : Ngrams α).applyAdds ops).2.totalCount arg false =
      .ok (((ops.filter fun op => op.1.length ∈ ms).map Prod.snd).sum) ∧
    ((Ngrams.fresh n : Ngrams α).applyAdds ops).2.totalCount arg true =
      .ok ((((dedupKeepFirst (ops.map Prod.fst)).filter
        fun g => g.length ∈ ms).length : Int)) := by
  obtain ⟨hwc, hsum, hlen⟩ := Ngrams.totalCount_strata n ops hval ms hnd hms
  have hngc : ((Ngrams.fresh n : Ngrams α).applyAdds ops).2.ngramsWithCounts arg none =
      .ok (ms.flatMap fun m => flattened_ngrams_with_counts
        ((((Ngrams.fresh n : Ngrams α).applyAdds ops).2).tries m) none) := by
    rw [Ngrams.ngramsWithCounts, hres]
    exact hwc
  constructor
  · rw [Ngrams.totalCount, hngc]
    exact congrArg Except.ok hsum
  · rw [Ngrams.totalCount, hngc]
    exact congrArg (fun k : Nat => (Except.ok (k : Int) : Except PyErr Int)) hlen

/-- C7 counterexample: the claim promises a sum for every integer order
argument, but `total_count(order=2)` on an `Ngrams(order=1)` collection
raises `KeyError` (`self._tries[2]` is indexed with no such stratum) instead
of returning 0 for the empty selection. -/
theorem C7_counterexample :
    (Ngrams.fresh 1 : Ngrams Char).totalCount (.intArg 2) false = .error .keyError ∧
    ∀ m : Int, (Ngrams.fresh 1 : Ngrams Char).totalCount (.intArg 2) false ≠ .ok m := by
  constructor
  · rfl
  · intro m h
    rw [show (Ngrams.fresh 1 : Ngrams Char).totalCount (.intArg 2) false =
        .error .keyError from rfl] at h
    exact Except.noConfusion h

/-- C7 (amended): on a collection built by a sequence of valid adds,
`total_count(None, False)` returns the sum of all added counts and
`total_count(None, True)` the number of distinct added entries; an integer
order within `1..=order` restricts both to the entries of that length, and a
duplicate-free iterable of in-range integer orders to the selected lengths
(out-of-range integer orders instead raise `KeyError` — the uncorrected
claim's reading fails there); an iterable containing a non-integer raises
`ValueError`, as does an argument that is neither an int, an iterable, nor
`None`. -/
theorem C7_total_count_amended {α : Type _} [DecidableEq α] :
    (∀ (n : Nat) (ops : List (List α × Int)),
      (∀ op ∈ ops, 1 ≤ op.1.length ∧ op.1.length ≤ n) →
      (((Ngrams.fresh n : Ngrams α).applyAdds ops).2.totalCount .noneArg false =
        .ok ((ops.map Prod.snd).sum)) ∧
      (((Ngrams.fresh n : Ngrams α).applyAdds ops).2.totalCount .noneArg true =
        .ok (((dedupKeepFirst (ops.map Prod.fst)).length : Int))) ∧
      (∀ i : Nat, 1 ≤ i → i ≤ n →
        (((Ngrams.fresh n : Ngrams α).applyAdds ops).2.totalCount
            (.intArg (i : Int)) false =
          .ok (((ops.filter fun op => op.1.length = i).map Prod.snd).sum)) ∧
        (((Ngrams.fresh n : Ngrams α).applyAdds ops).2.totalCount
            (.intArg (i : Int)) true =
          .ok ((((dedupKeepFirst (ops.map Prod.fst)).filter
            fun g => g.length = i).length : Int)))) ∧
      (∀ ms : List Nat, ms.Nodup → (∀ m ∈ ms, 1 ≤ m ∧ m ≤ n) →
        (((Ngrams.fresh n : Ngrams α).applyAdds ops).2.totalCount
            (.iterArg (ms.map fun m : Nat => OrderItem.int (m : Int))) false =
          .ok (((ops.filter fun op => op.1.length ∈ ms).map Prod.snd).sum)) ∧
        (((Ngrams.fresh n : Ngrams α).applyAdds ops).2.totalCount
            (.iterArg (ms.map fun m : Nat => OrderItem.int (m : Int))) true =
          .ok ((((dedupKeepFirst (ops.map Prod.fst)).filter
            fun g => g.length ∈ ms).length : Int))))) ∧
    (∀ (s : Ngrams α) (u : Bool) (xs : List OrderItem), OrderItem.nonInt ∈ xs →
      s.totalCount (.iterArg xs) u = .error .valueError) ∧
    (∀ (s : Ngrams α) (u : Bool), s.totalCount .otherArg u = .error .valueError) := by
  refine ⟨fun n ops hval => ?_, fun s u xs hmem => ?_, fun s u => rfl⟩
  · have hordn : (((Ngrams.fresh n : Ngrams α).applyAdds ops).2).order = n :=
      (Ngrams.applyAdds_specN ops _ (Ngrams.fresh_WFN n) hval).2.2.1
    have hnd0 : ((List.range n).map fun i => i + 1).Nodup :=
      (List.nodup_range n).map (fun a b h => by omega)
    have hb0 : ∀ m ∈ (List.range n).map fun i => i + 1, 1 ≤ m ∧ m ≤ n :=
      fun m hm => (mem_range_succ_map n m).mp hm
    have hres0 : resolveOrders .noneArg
        (((Ngrams.fresh n : Ngrams α).applyAdds ops).2).order =
        .ok (((List.range n).map fun i => i + 1).map fun m : Nat => (m : Int)) := by
      show Except.ok ((List.range
          ((((Ngrams.fresh n : Ngrams α).applyAdds ops).2).order)).map
        fun i : Nat => (i : Int) + 1) = _
      rw [hordn, List.map_map]
      exact congrArg Except.ok (List.map_congr_left fun a _ => by
        show (a : Int) + 1 = ((a + 1 : Nat) : Int)
        push_cast
        ring)
    have heval0 := Ngrams.totalCount_eval n ops hval _ hnd0 hb0 .noneArg hres0
    have hopsall : (ops.filter fun op => op.1.length ∈ (List.range n).map fun i => i + 1) =
        ops :=
      List.filter_eq_self.mpr (fun op hop =>
        decide_eq_true ((mem_range_succ_map n op.1.length).mpr (hval op hop)))
    have hdedupall : ((dedupKeepFirst (ops.map Prod.fst)).filter
        fun g => g.length ∈ (List.range n).map fun i => i + 1) =
        dedupKeepFirst (ops.map Prod.fst) :=
      List.filter_eq_self.mpr (fun g hg => by
        obtain ⟨op, hop, rfl⟩ := List.mem_map.mp ((mem_dedupKeepFirst _ _).mp hg)
        exact decide_eq_true ((mem_range_succ_map n op.1.length).mpr (hval op hop)))
    rw [hopsall, hdedupall] at heval0
    refine ⟨heval0.1, heval0.2, fun i hi1 hi2 => ?_, fun ms hnd hms => ?_⟩
    · have hndi : ([i] : List Nat).Nodup := by simp
      have hbi : ∀ m ∈ ([i] : List Nat), 1 ≤ m ∧ m ≤ n := by
        intro m hm
        rw [List.mem_singleton] at hm
        subst hm
        exact ⟨hi1, hi2⟩
      have hresi : resolveOrders (.intArg (i : Int))
          (((Ngrams.fresh n : Ngrams α).applyAdds ops).2).order =
          .ok (([i] : List Nat).map fun m : Nat => (m : Int)) := rfl
      have hevali := Ngrams.totalCount_eval n ops hval [i] hndi hbi _ hresi
      have hof : (ops.filter fun op => op.1.length ∈ ([i] : List Nat)) =
          (ops.filter fun op => op.1.length = i) :=
        List.filter_congr (fun op _ => decide_eq_decide.mpr List.mem_singleton)
      have hdf : ((dedupKeepFirst (ops.map Prod.fst)).filter
          fun g => g.length ∈ ([i] : List Nat)) =
          ((dedupKeepFirst (ops.map Prod.fst)).filter fun g => g.length = i) :=
        List.filter_congr (fun g _ => decide_eq_decide.mpr List.mem_singleton)
      rw [hof, hdf] at hevali
      exact hevali
    · have hresm : resolveOrders (.iterArg (ms.map fun m : Nat => OrderItem.int (m : Int)))
          (((Ngrams.fresh n : Ngrams α).applyAdds ops).2).order =
          .ok (ms.map fun m : Nat => (m : Int)) := by
        rw [show (ms.map fun m : Nat => OrderItem.int (m : Int)) =
            ((ms.map fun m : Nat => (m : Int)).map OrderItem.int) by
          rw [List.map_map]
          rfl]
        exact resolveOrders_ints _ _
      exact Ngrams.totalCount_eval n ops hval ms hnd hms _ hresm
  · have hall : (xs.all fun x => match x with
        | OrderItem.int _ => true | OrderItem.nonInt => false) = false := by
      cases hb : xs.all fun x => match x with
          | OrderItem.int _ => true | OrderItem.nonInt => false with
      | false => rfl
      | true =>
        have := List.all_eq_true.mp hb _ hmem
        simp at this
    have hres : resolveOrders (.iterArg xs) s.order = .error .valueError := by
      simp only [resolveOrders, hall]
      rfl
    rw [Ngrams.totalCount, Ngrams.ngramsWithCounts, hres]
    rfl

/-- Witness for C7's amended theorem: for `{a: 2, ab: 3}` built with `a`
added twice, `total_count()` is 6, `total_count(unique=True)` is 2, and
`total_count(order=1)` is 3. -/
theorem C7_witness :
    ((Ngrams.fresh 2 : Ngrams Char).applyAdds
        [(['a'], 2), (['a', 'b'], 3), (['a'], 1)]).2.totalCount .noneArg false = .ok 6 ∧
    ((Ngrams.fresh 2 : Ngrams Char).applyAdds
        [(['a'], 2), (['a', 'b'], 3), (['a'], 1)]).2.totalCount .noneArg true = .ok 2 ∧
    ((Ngrams.fresh 2 : Ngrams Char).applyAdds
        [(['a'], 2), (['a', 'b'], 3), (['a'], 1)]).2.totalCount (.intArg 1) false =
      .ok 3 := by
  have h := (C7_total_count_amended (α := Char)).1 2
    [(['a'], 2), (['a', 'b'], 3), (['a'], 1)] (by decide)
  refine ⟨h.1.trans (by rfl), h.2.1.trans (by rfl), ?_⟩
  exact (h.2.2.1 1 (by decide) (by decide)).1.trans (by rfl)
